import Mathlib

/-!
Verification of the move-document engine of `src/gcode_generator.py`.

Python floats are modelled as exact rationals (`ℚ`); Python strings are Lean
`String`s, manipulated through their character lists.  Every definition below
is translated from the source file; the UI listbox/plot mirroring is state
kept in lockstep with `gcode_lines` and is not part of the engine state.
-/

-- Batteries marks the core rational operations irreducible, which blocks
-- kernel evaluation of concrete examples; restore the default status here.
attribute [local semireducible] Rat.add Rat.mul Rat.inv Rat.sub Rat.ofScientific

/-- Numeric value of a decimal digit character. -/
def charToDigit (c : Char) : ℕ := c.toNat - 48

/-- Value of a list of decimal digit characters, most significant first. -/
def digitsVal (l : List Char) : ℕ := l.foldl (fun a c => 10 * a + charToDigit c) 0

/-- The decimal digit character for a value below ten. -/
def digitChar : ℕ → Char
  | 0 => '0' | 1 => '1' | 2 => '2' | 3 => '3' | 4 => '4'
  | 5 => '5' | 6 => '6' | 7 => '7' | 8 => '8' | 9 => '9'
  | _ => '?'

/-- Decimal rendering of a natural number (fuelled so that it evaluates). -/
def natCharsAux : ℕ → ℕ → List Char
  | 0, _ => []
  | fuel + 1, n =>
    if n < 10 then [digitChar n]
    else natCharsAux fuel (n / 10) ++ [digitChar (n % 10)]

/-- Decimal rendering of a natural number, as Python's `str`. -/
def natChars (n : ℕ) : List Char := natCharsAux (n + 1) n

/-- Decimal rendering of an integer, as Python's `str(int(...))`. -/
def intChars (i : ℤ) : List Char :=
  if i < 0 then '-' :: natChars i.natAbs else natChars i.natAbs

/-- Python's `str.rstrip(c)`: drop all trailing occurrences of `c`. -/
def stripRight (c : Char) (l : List Char) : List Char :=
  (l.reverse.dropWhile (· == c)).reverse

/-- Python's `str.strip()`: drop leading and trailing whitespace. -/
def trimList (l : List Char) : List Char :=
  ((l.dropWhile Char.isWhitespace).reverse.dropWhile Char.isWhitespace).reverse

/-- Floor of a rational number (`Int.fdiv` keeps it kernel-evaluable). -/
def ratFloor (q : ℚ) : ℤ := Int.fdiv q.num q.den

/-- Python's `int(float)`: truncation toward zero. -/
def pyTrunc (q : ℚ) : ℤ := Int.tdiv q.num (q.den : ℤ)

/-- Round to the nearest integer, ties to even: the rounding used by Python's
fixed-point float formatting `f"{v:.6f}"`. -/
def roundHalfEven (q : ℚ) : ℤ :=
  let f := ratFloor q
  let r := q - (f : ℚ)
  if r < 1 / 2 then f
  else if 1 / 2 < r then f + 1
  else if f % 2 = 0 then f else f + 1

/-- Consume an optional leading sign; the flag says whether it was `-`. -/
def signSplit (l : List Char) : Bool × List Char :=
  match l with
  | '-' :: t => (true, t)
  | '+' :: t => (false, t)
  | t => (false, t)

/-- Consume an optional decimal point and the fraction digits after it,
returning the digits and the rest. -/
def dotSplit (l : List Char) : List Char × List Char :=
  match l with
  | '.' :: t => (t.takeWhile Char.isDigit, t.dropWhile Char.isDigit)
  | t => ([], t)

/-- Python's `float(...)` on a decimal literal: optional sign, digits with an
optional decimal point, optional exponent.  (The `inf`/`nan`/underscore forms
Python also accepts never arise in this program's data and are not modelled.)
Surrounding whitespace is stripped by `pyFloatList` below, as `float` does. -/
def pyFloatCore (l : List Char) : Option ℚ :=
  let s := signSplit l
  let ds1 := s.2.takeWhile Char.isDigit
  let r1 := s.2.dropWhile Char.isDigit
  let fr := dotSplit r1
  let ds2 := fr.1
  let r2 := fr.2
  if ds1 = [] ∧ ds2 = [] then none
  else
    let mant : ℚ := (digitsVal (ds1 ++ ds2) : ℚ) / (10 : ℚ) ^ ds2.length
    let mant := if s.1 then -mant else mant
    match r2 with
    | [] => some mant
    | e :: t =>
      if e = 'e' ∨ e = 'E' then
        let es := signSplit t
        let eds := es.2.takeWhile Char.isDigit
        let r3 := es.2.dropWhile Char.isDigit
        if eds = [] ∨ r3 ≠ [] then none
        else some (if es.1 then mant / (10 : ℚ) ^ digitsVal eds
                   else mant * (10 : ℚ) ^ digitsVal eds)
      else none

/-- `float(...)` on a list of characters (strips whitespace like Python). -/
def pyFloatList (l : List Char) : Option ℚ := pyFloatCore (trimList l)

/-- `float(...)` on a string. -/
def pyFloat (s : String) : Option ℚ := pyFloatList s.toList

/-- `TOL = 1e-9`, the absolute tolerance of `_eq` in the source. -/
def TOL : ℚ := 1 / 1000000000

/-- The characters emitted by `fmt_number` for an already-parsed value `v`:
`str(int(v))` when `v` is within `1e-9` of its truncation, otherwise
`f"{v:.6f}"` with trailing zeros and a trailing point stripped. -/
def fmtValChars (v : ℚ) : List Char :=
  if |v - (pyTrunc v : ℚ)| < TOL then intChars (pyTrunc v)
  else
    let n := roundHalfEven (v * 1000000)
    let sign : List Char := if v < 0 then ['-'] else []
    let ip := n.natAbs / 1000000
    let fp := n.natAbs % 1000000
    let frac := List.replicate (6 - (natChars fp).length) '0' ++ natChars fp
    stripRight '.' (stripRight '0' (sign ++ natChars ip ++ '.' :: frac))

/-- `fmt_number` of the source: strip, return `""` for empty or unparsable
text, otherwise the canonical rendering of the parsed value. -/
def fmt_number (s : String) : String :=
  let l := trimList s.toList
  if l = [] then ""
  else
    match pyFloatCore l with
    | some v => String.mk (fmtValChars v)
    | none => ""

/-- The rational value a canonical record field denotes: what `fmt_number`'s
output re-parses to. -/
def canonVal (v : ℚ) : ℚ :=
  if |v - (pyTrunc v : ℚ)| < TOL then (pyTrunc v : ℚ)
  else (roundHalfEven (v * 1000000) : ℚ) / 1000000

/-- Drop everything from the first occurrence of `sep` on:
`line.split(sep, 1)[0]` in the source. -/
def stripAfter (sep : Char) (l : List Char) : List Char :=
  l.takeWhile (fun c => c != sep)

/-- Case-insensitive check that the line starts with `M3` or `M5`
(`U.startswith("M3") or U.startswith("M5")` on the uppercased line). -/
def spindleStart (l : List Char) : Bool :=
  match l.map Char.toUpper with
  | 'M' :: '3' :: _ => true
  | 'M' :: '5' :: _ => true
  | _ => false

/-- `line.replace(',', ' ')` character map. -/
def commaSpace (c : Char) : Char := if c = ',' then ' ' else c

/-- Python's `str.split()`: split on whitespace runs, dropping empty parts. -/
def splitWs : List Char → List (List Char)
  | [] => []
  | c :: cs =>
    if c.isWhitespace then splitWs cs
    else
      match cs, splitWs cs with
      | [], _ => [[c]]
      | d :: _, r =>
        if d.isWhitespace then [c] :: r
        else
          match r with
          | t :: ts => (c :: t) :: ts
          | [] => [[c]]

/-- The token scan of `parse_g1_xy`: for each token whose first letter is `X`
or `Y` (case-insensitive), parse the remainder with `float`; a malformed
remainder aborts the whole parse (`return None`), later values overwrite
earlier ones. -/
def scanTokens : List (List Char) → Option ℚ → Option ℚ → Option (Option ℚ × Option ℚ)
  | [], xv, yv => some (xv, yv)
  | [] :: ts, xv, yv => scanTokens ts xv yv
  | (c :: r) :: ts, xv, yv =>
    if c.toUpper = 'X' then
      match pyFloatList r with
      | some v => scanTokens ts (some v) yv
      | none => none
    else if c.toUpper = 'Y' then
      match pyFloatList r with
      | some v => scanTokens ts xv (some v)
      | none => none
    else scanTokens ts xv yv

/-- `parse_g1_xy` of the source, on the character list of the line. -/
def parseXY (l : List Char) : Option (ℚ × ℚ) :=
  let l1 := stripAfter ';' l
  let l2 := stripAfter '#' l1
  let l3 := trimList l2
  if l3 = [] then none
  else if spindleStart l3 then none
  else
    match scanTokens (splitWs (l3.map commaSpace)) none none with
    | some (some x, some y) => some (x, y)
    | _ => none

/-- `parse_g1_xy(line)`: extract an `(x, y)` pair from one line of text. -/
def parse_g1_xy (s : String) : Option (ℚ × ℚ) := parseXY s.toList

/-- The engine state: the ordered record sequence `gcode_lines` and the
single-slot snapshot `last_snapshot`. -/
structure DocState where
  gcode_lines : List String
  last_snapshot : Option (List String)
deriving DecidableEq, Repr

/-- `snapshot()`: store a copy of the current records. -/
def snapshot (st : DocState) : DocState :=
  { st with last_snapshot := some st.gcode_lines }

/-- `restore_snapshot()`: copy the snapshot back into the document; a no-op
when no snapshot exists.  Note the source leaves `last_snapshot` in place. -/
def restore_snapshot (st : DocState) : DocState :=
  match st.last_snapshot with
  | none => st
  | some l => { st with gcode_lines := l }

/-- The characters of the record `f"G1 X{fmt_number(str(xn))} Y{fmt_number(str(yn))}"`.
(`fmt_number(str(v))` always takes the parsed branch, since `str` of a float
re-parses to the same value, so it reduces to the value-level formatter.) -/
def recChars (xn yn : ℚ) : List Char :=
  ['G', '1', ' ', 'X'] ++ fmtValChars xn ++ [' ', 'Y'] ++ fmtValChars yn

/-- The canonical move record for `(xn, yn)`. -/
def mkRec (xn yn : ℚ) : String := String.mk (recChars xn yn)

/-- `add_or_merge_line`: append the canonical record, but when the last two
records both share `Y` with the new move (within `TOL`) — or, failing that,
both share `X` — overwrite the last record instead. -/
def add_or_merge_line (xn yn : ℚ) (lines : List String) : List String :=
  let new_text := mkRec xn yn
  let last_xy := (lines.getLast?).bind parse_g1_xy
  let prev_xy := (lines.dropLast.getLast?).bind parse_g1_xy
  match last_xy, prev_xy with
  | some l, some p =>
    if |l.2 - yn| ≤ TOL ∧ |p.2 - yn| ≤ TOL then lines.dropLast ++ [new_text]
    else if |l.1 - xn| ≤ TOL ∧ |p.1 - xn| ≤ TOL then lines.dropLast ++ [new_text]
    else lines ++ [new_text]
  | _, _ => lines ++ [new_text]

/-- `submit_line`: format both entry texts; reject (returning the state
untouched and `false`) if either is empty or unparsable; otherwise snapshot
and append through the merge rule. -/
def submit_line (x y : String) (st : DocState) : DocState × Bool :=
  let x_txt := fmt_number x
  let y_txt := fmt_number y
  if x_txt = "" ∨ y_txt = "" then (st, false)
  else
    let st1 := snapshot st
    match pyFloat x_txt, pyFloat y_txt with
    | some xn, some yn =>
      ({ st1 with gcode_lines := add_or_merge_line xn yn st1.gcode_lines }, true)
    | _, _ => (st1, false)

/-- `remove_selected`: no-op on an empty selection; otherwise snapshot and
delete the selected indices from highest to lowest. -/
def remove_selected (sel : List ℕ) (st : DocState) : DocState :=
  if sel = [] then st
  else
    let st1 := snapshot st
    { st1 with gcode_lines := sel.reverse.foldl (fun ls i => ls.eraseIdx i) st1.gcode_lines }

/-- `clear_all_lines` (with the user confirming): no-op on an empty document;
otherwise snapshot and empty the sequence. -/
def clear_all_lines (st : DocState) : DocState :=
  if st.gcode_lines = [] then st
  else { snapshot st with gcode_lines := [] }

/-- The import core of `load_gcode`: parse every raw line, count the failures;
abort (state untouched) when nothing parsed; otherwise snapshot, optionally
clear, and append every parsed move through the merge rule.  Returns the new
state, the imported count and the skipped count. -/
def import_lines (raw : List String) (do_replace : Bool) (st : DocState) :
    DocState × ℕ × ℕ :=
  let parsed := raw.filterMap parse_g1_xy
  let skipped := raw.length - parsed.length
  if parsed = [] then (st, 0, skipped)
  else
    let st1 := snapshot st
    let start := if do_replace then [] else st1.gcode_lines
    ({ st1 with gcode_lines := parsed.foldl (fun ls p => add_or_merge_line p.1 p.2 ls) start },
      parsed.length, skipped)

/-- Characterwise `List.IsPrefix` test, for the substring search below. -/
def startsWithChars : List Char → List Char → Bool
  | [], _ => true
  | _ :: _, [] => false
  | p :: ps, c :: cs => p == c && startsWithChars ps cs

/-- Python's `pat in s` substring containment. -/
def hasSub (pat : List Char) : List Char → Bool
  | [] => startsWithChars pat []
  | c :: cs => startsWithChars pat (c :: cs) || hasSub pat cs

/-- `save_gcode` without the file dialog: `None` for an empty document (the
"Nothing to save" warning); otherwise the records wrapped in `M3`/`M5`, with
` F200` appended to the first record when it contains neither `" F"` nor a
tab followed by `F`. -/
def save_gcode (st : DocState) : Option (List String) :=
  match st.gcode_lines with
  | [] => none
  | first :: rest =>
    let first1 :=
      if hasSub [' ', 'F'] first.toList = false ∧ hasSub ['\t', 'F'] first.toList = false
      then first ++ " F200" else first
    some ("M3" :: first1 :: (rest ++ ["M5"]))

/-- `parse_float(s, None)` of the source. -/
def parse_float (s : String) : Option ℚ := pyFloat s

/-- `max is not None and value > max`: one bound check of `loop_block`. -/
def exceeds (w : ℚ) (mo : Option ℚ) : Bool :=
  match mo with
  | some m => decide (w > m)
  | none => false

/-- The per-group bound check of `loop_block`: the group for iteration `k` is
rejected when any candidate exceeds a set bound. -/
def group_violates (base : List (ℚ × ℚ)) (dx dy : ℚ) (mx my : Option ℚ) (k : ℕ) : Bool :=
  base.any fun p => exceeds (p.1 + dx * k) mx || exceeds (p.2 + dy * k) my

/-- The candidate group for iteration `k`: the base shifted by `k·(dx, dy)`. -/
def shiftGroup (base : List (ℚ × ℚ)) (dx dy : ℚ) (k : ℕ) : List (ℚ × ℚ) :=
  base.map fun p => (p.1 + dx * k, p.2 + dy * k)

/-- Append a whole candidate group through the merge rule. -/
def appendGroup (base : List (ℚ × ℚ)) (dx dy : ℚ) (k : ℕ) (lines : List String) :
    List String :=
  (shiftGroup base dx dy k).foldl (fun ls p => add_or_merge_line p.1 p.2 ls) lines

/-- The `while True` loop of `loop_block`, with explicit fuel: `none` means
the source loop would still be running after `fuel` iterations. -/
def loop_run (base : List (ℚ × ℚ)) (dx dy : ℚ) (mx my : Option ℚ) :
    ℕ → ℕ → ℕ → List String → Option (List String × ℕ)
  | 0, _, _, _ => none
  | fuel + 1, k, appended, lines =>
    if group_violates base dx dy mx my k then some (lines, appended)
    else if base = [] then some (lines, appended)
    else loop_run base dx dy mx my fuel (k + 1) (appended + 1) (appendGroup base dx dy k lines)

/-- Re-parse the current records into the loop's base block; `none` when some
record fails to parse (the "Parse error" abort). -/
def base_of_lines : List String → Option (List (ℚ × ℚ))
  | [] => some []
  | s :: rest =>
    match parse_g1_xy s with
    | none => none
    | some xy =>
      match base_of_lines rest with
      | none => none
      | some b => some (xy :: b)

/-- Result of `loop_block`: a validation abort returning the untouched state,
a normal finish with the group count, or fuel exhaustion (the source loop is
still running). -/
inductive LoopResult where
  | rejected (st : DocState)
  | finished (st : DocState) (appended : ℕ)
  | outOfFuel
deriving DecidableEq, Repr

/-- `loop_block`: validate (non-empty document, at least one bound set, every
record parses), snapshot, then run the expansion loop. -/
def loop_block (max_x_s max_y_s dx_s dy_s : String) (fuel : ℕ) (st : DocState) :
    LoopResult :=
  if st.gcode_lines = [] then .rejected st
  else
    let max_x := parse_float max_x_s
    let max_y := parse_float max_y_s
    let dx := (parse_float dx_s).getD 0
    let dy := (parse_float dy_s).getD 0
    if max_x = none ∧ max_y = none then .rejected st
    else
      match base_of_lines st.gcode_lines with
      | none => .rejected st
      | some base =>
        let st1 := snapshot st
        match loop_run base dx dy max_x max_y fuel 1 0 st1.gcode_lines with
        | none => .outOfFuel
        | some (lines, appended) => .finished { st1 with gcode_lines := lines } appended

/-- Apply the groups for iterations `k, k+1, …, k+n-1` in order. -/
def foldGroups (base : List (ℚ × ℚ)) (dx dy : ℚ) : ℕ → ℕ → List String → List String
  | _, 0, lines => lines
  | k, n + 1, lines => foldGroups base dx dy (k + 1) n (appendGroup base dx dy k lines)

/-- The characters a canonical numeric field may contain. -/
def CharOK (c : Char) : Prop := c.isDigit = true ∨ c = '-' ∨ c = '.'

instance (c : Char) : Decidable (CharOK c) := by unfold CharOK; infer_instance

/-- The spec's feed-field detector, amended to the separators the source
actually tests: an `F` preceded by a space or by a tab. -/
def specFeedField (f : String) : Prop :=
  (∃ l1 l2, f.toList = l1 ++ ' ' :: 'F' :: l2) ∨
    ∃ l1 l2, f.toList = l1 ++ '\t' :: 'F' :: l2

/-!  ### Digit-string arithmetic  -/

theorem foldl_digitsVal (b : List Char) :
    ∀ a : ℕ, b.foldl (fun a c => 10 * a + charToDigit c) a =
      a * 10 ^ b.length + digitsVal b := by
  induction b with
  | nil => intro a; simp [digitsVal]
  | cons c t ih =>
    intro a
    have h1 : digitsVal (c :: t) = charToDigit c * 10 ^ t.length + digitsVal t := by
      show List.foldl _ (10 * 0 + charToDigit c) t = _
      rw [ih]
      ring_nf
    show List.foldl _ (10 * a + charToDigit c) t = _
    rw [ih, h1, List.length_cons]
    ring

theorem digitsVal_append (a b : List Char) :
    digitsVal (a ++ b) = digitsVal a * 10 ^ b.length + digitsVal b := by
  show List.foldl _ 0 (a ++ b) = _
  rw [List.foldl_append]
  exact foldl_digitsVal b _

theorem digitsVal_zeros_append (k : ℕ) (l : List Char) :
    digitsVal (List.replicate k '0' ++ l) = digitsVal l := by
  induction k with
  | zero => simp
  | succ n ih =>
    have : List.replicate (n + 1) '0' ++ l = '0' :: (List.replicate n '0' ++ l) := by
      simp [List.replicate_succ]
    rw [this]
    show List.foldl _ (10 * 0 + charToDigit '0') _ = _
    exact ih

theorem charToDigit_digitChar {d : ℕ} (h : d < 10) : charToDigit (digitChar d) = d := by
  interval_cases d <;> rfl

theorem digitChar_isDigit {d : ℕ} (h : d < 10) : (digitChar d).isDigit = true := by
  interval_cases d <;> rfl

theorem natCharsAux_spec :
    ∀ fuel n, n < fuel →
      natCharsAux fuel n ≠ [] ∧ (∀ c ∈ natCharsAux fuel n, c.isDigit = true) ∧
        digitsVal (natCharsAux fuel n) = n := by
  intro fuel
  induction fuel with
  | zero => intro n h; omega
  | succ f ih =>
    intro n h
    rw [natCharsAux]
    by_cases h10 : n < 10
    · simp only [if_pos h10]
      refine ⟨by simp, ?_, ?_⟩
      · intro c hc
        rcases List.mem_singleton.mp hc with rfl
        exact digitChar_isDigit h10
      · show 10 * 0 + charToDigit (digitChar n) = n
        rw [charToDigit_digitChar h10]
        omega
    · simp only [if_neg h10]
      have hdiv : n / 10 < f := by
        have h2 : n / 10 < n := Nat.div_lt_self (by omega) (by omega)
        omega
      obtain ⟨hne, hdig, hval⟩ := ih (n / 10) hdiv
      refine ⟨by simp [hne], ?_, ?_⟩
      · intro c hc
        rcases List.mem_append.mp hc with hc | hc
        · exact hdig c hc
        · rcases List.mem_singleton.mp hc with rfl
          exact digitChar_isDigit (Nat.mod_lt _ (by omega))
      · rw [digitsVal_append, hval]
        have : digitsVal [digitChar (n % 10)] = n % 10 := by
          show 10 * 0 + charToDigit (digitChar (n % 10)) = n % 10
          rw [charToDigit_digitChar (Nat.mod_lt _ (by omega))]
          omega
        rw [this]
        simp only [List.length_singleton, pow_one]
        omega

theorem natChars_ne_nil (n : ℕ) : natChars n ≠ [] :=
  (natCharsAux_spec (n + 1) n (by omega)).1

theorem natChars_isDigit (n : ℕ) : ∀ c ∈ natChars n, c.isDigit = true :=
  (natCharsAux_spec (n + 1) n (by omega)).2.1

theorem digitsVal_natChars (n : ℕ) : digitsVal (natChars n) = n :=
  (natCharsAux_spec (n + 1) n (by omega)).2.2

/-!  ### Character classes  -/

theorem charOK_intChars (i : ℤ) : ∀ c ∈ intChars i, CharOK c := by
  intro c hc
  rw [intChars] at hc
  split at hc
  · rcases List.mem_cons.mp hc with rfl | hc
    · exact Or.inr (Or.inl rfl)
    · exact Or.inl (natChars_isDigit _ c hc)
  · exact Or.inl (natChars_isDigit _ c hc)

theorem stripRight_subset (c : Char) (l : List Char) :
    ∀ x ∈ stripRight c l, x ∈ l := by
  intro x hx
  rw [stripRight] at hx
  rw [List.mem_reverse] at hx
  have := (List.dropWhile_sublist (fun d => d == c) (l := l.reverse)).subset hx
  exact List.mem_reverse.mp this

theorem charOK_fmtValChars (v : ℚ) : ∀ c ∈ fmtValChars v, CharOK c := by
  intro c hc
  simp only [fmtValChars] at hc
  split at hc
  · exact charOK_intChars _ c hc
  · have hc1 := stripRight_subset _ _ c hc
    have hc2 := stripRight_subset _ _ c hc1
    rcases List.mem_append.mp hc2 with hc3 | hc3
    · rcases List.mem_append.mp hc3 with hc4 | hc4
      · split at hc4
        · rcases List.mem_singleton.mp hc4 with rfl
          exact Or.inr (Or.inl rfl)
        · simp at hc4
      · exact Or.inl (natChars_isDigit _ c hc4)
    · rcases List.mem_cons.mp hc3 with rfl | hc5
      · exact Or.inr (Or.inr rfl)
      · rcases List.mem_append.mp hc5 with hc6 | hc6
        · rcases List.eq_of_mem_replicate hc6 with rfl
          exact Or.inl rfl
        · exact Or.inl (natChars_isDigit _ c hc6)

theorem charOK_ne {c d : Char} (h : CharOK c) (hd : ¬ CharOK d) : c ≠ d :=
  fun e => hd (e ▸ h)

theorem charOK_not_white {c : Char} (h : CharOK c) : c.isWhitespace = false := by
  by_contra hw
  simp only [Bool.not_eq_false] at hw
  simp only [Char.isWhitespace, Bool.or_eq_true, decide_eq_true_eq] at hw
  rcases hw with (((rfl | rfl) | rfl) | rfl) <;> revert h <;> decide

/-!  ### The cleanup passes fix benign text  -/

theorem takeWhile_eq_self {p : Char → Bool} {l : List Char}
    (h : ∀ c ∈ l, p c = true) : l.takeWhile p = l := by
  induction l with
  | nil => rfl
  | cons c t ih =>
    have hc := h c (List.mem_cons_self c t)
    simp only [List.takeWhile_cons, hc, if_true]
    rw [ih fun c hc => h c (List.mem_cons_of_mem _ hc)]

theorem dropWhile_eq_self {p : Char → Bool} {l : List Char}
    (h : ∀ c ∈ l, p c = false) : l.dropWhile p = l := by
  cases l with
  | nil => rfl
  | cons c t =>
    exact List.dropWhile_cons_of_neg (by simp [h c (List.mem_cons_self c t)])

theorem trimList_eq_self {l : List Char} (h : ∀ c ∈ l, c.isWhitespace = false) :
    trimList l = l := by
  rw [trimList, dropWhile_eq_self h,
    dropWhile_eq_self fun c hc => h c (List.mem_reverse.mp hc), List.reverse_reverse]

theorem stripAfter_eq_self {sep : Char} {l : List Char} (h : ∀ c ∈ l, c ≠ sep) :
    stripAfter sep l = l :=
  takeWhile_eq_self fun c hc => bne_iff_ne.mpr (h c hc)

theorem map_commaSpace_eq_self {l : List Char} (h : ∀ c ∈ l, c ≠ ',') :
    l.map commaSpace = l := by
  induction l with
  | nil => rfl
  | cons c t ih =>
    rw [List.map_cons, ih fun c hc => h c (List.mem_cons_of_mem _ hc),
      commaSpace, if_neg (h c (List.mem_cons_self c t))]

/-!  ### How `splitWs` cuts a token-separated line  -/

theorem splitWs_white_cons {c : Char} (hw : c.isWhitespace = true) (l : List Char) :
    splitWs (c :: l) = splitWs l := by
  rw [splitWs.eq_def]
  simp [hw]

theorem splitWs_single_char {c : Char} (hc : c.isWhitespace = false) :
    splitWs [c] = [[c]] := by
  rw [splitWs.eq_def]
  simp [hc]

theorem splitWs_cons_cons {c d : Char} (cs : List Char) (hc : c.isWhitespace = false) :
    splitWs (c :: d :: cs) =
      if d.isWhitespace then [c] :: splitWs (d :: cs)
      else
        match splitWs (d :: cs) with
        | t :: ts => (c :: t) :: ts
        | [] => [[c]] := by
  rw [splitWs.eq_def]
  simp [hc]

theorem splitWs_spec :
    ∀ tok : List Char, tok ≠ [] → (∀ c ∈ tok, c.isWhitespace = false) →
      splitWs tok = [tok] ∧
        ∀ rest : List Char, splitWs (tok ++ ' ' :: rest) = tok :: splitWs rest := by
  intro tok
  induction tok with
  | nil => intro h; exact absurd rfl h
  | cons c t ih =>
    intro _ h
    have hc : c.isWhitespace = false := h c (List.mem_cons_self c t)
    cases t with
    | nil =>
      refine ⟨splitWs_single_char hc, fun rest => ?_⟩
      show splitWs (c :: ' ' :: rest) = [c] :: splitWs rest
      rw [splitWs_cons_cons rest hc, if_pos (by decide),
        splitWs_white_cons (by decide) rest]
    | cons d t' =>
      have hd : d.isWhitespace = false := h d (by simp)
      obtain ⟨ih1, ih2⟩ :=
        ih (by simp) fun c hc => h c (List.mem_cons_of_mem _ hc)
      constructor
      · rw [splitWs_cons_cons t' hc, if_neg (by simp [hd]), ih1]
      · intro rest
        have hassoc : (c :: d :: t') ++ ' ' :: rest = c :: d :: (t' ++ ' ' :: rest) := rfl
        rw [hassoc, splitWs_cons_cons _ hc, if_neg (by simp [hd])]
        have : splitWs (d :: (t' ++ ' ' :: rest)) = (d :: t') :: splitWs rest := ih2 rest
        rw [this]

/-!  ### The floor function and half-even rounding  -/

theorem ratFloor_le (q : ℚ) : (ratFloor q : ℚ) ≤ q := by
  have hd : (0 : ℤ) < (q.den : ℤ) := by exact_mod_cast q.den_pos
  have hdQ : (0 : ℚ) < (q.den : ℚ) := by exact_mod_cast q.den_pos
  have hm := Int.fmod_add_fdiv q.num q.den
  have h0 : 0 ≤ Int.fmod q.num q.den := Int.fmod_nonneg' _ hd
  have hZ : ratFloor q * (q.den : ℤ) ≤ q.num := by rw [ratFloor]; nlinarith
  have hQ : ((ratFloor q : ℚ)) * (q.den : ℚ) ≤ (q.num : ℚ) := by exact_mod_cast hZ
  have h2 : (ratFloor q : ℚ) ≤ (q.num : ℚ) / (q.den : ℚ) := (le_div_iff₀ hdQ).mpr hQ
  rwa [Rat.num_div_den] at h2

theorem lt_ratFloor_add_one (q : ℚ) : q < ratFloor q + 1 := by
  have hd : (0 : ℤ) < (q.den : ℤ) := by exact_mod_cast q.den_pos
  have hdQ : (0 : ℚ) < (q.den : ℚ) := by exact_mod_cast q.den_pos
  have hm := Int.fmod_add_fdiv q.num q.den
  have h1 : Int.fmod q.num q.den < (q.den : ℤ) := Int.fmod_lt_of_pos _ hd
  have hZ : q.num < (ratFloor q + 1) * (q.den : ℤ) := by rw [ratFloor]; nlinarith
  have hQ : (q.num : ℚ) < ((ratFloor q : ℚ) + 1) * (q.den : ℚ) := by exact_mod_cast hZ
  have h2 : (q.num : ℚ) / (q.den : ℚ) < (ratFloor q : ℚ) + 1 := (div_lt_iff₀ hdQ).mpr hQ
  rwa [Rat.num_div_den] at h2

set_option linter.unusedTactic false in
theorem roundHalfEven_abs_le (q : ℚ) : |(roundHalfEven q : ℚ) - q| ≤ 1 / 2 := by
  have h1 := ratFloor_le q
  have h2 := lt_ratFloor_add_one q
  simp only [roundHalfEven]
  split
  · rw [abs_le]
    constructor <;> (try push_cast) <;> linarith
  · split
    · rw [abs_le]
      constructor <;> (try push_cast) <;> linarith
    · split <;> (rw [abs_le]; constructor <;> (try push_cast) <;> linarith)

theorem roundHalfEven_eq_of_near (q : ℚ) (m : ℤ) (h : |q - (m : ℚ)| < 1 / 2) :
    roundHalfEven q = m := by
  have h1 := roundHalfEven_abs_le q
  have h2 : |(roundHalfEven q : ℚ) - (m : ℚ)| < 1 := by
    calc |(roundHalfEven q : ℚ) - (m : ℚ)|
        ≤ |(roundHalfEven q : ℚ) - q| + |q - (m : ℚ)| := abs_sub_le _ _ _
      _ < 1 := by linarith
  have h3 : |((roundHalfEven q - m : ℤ) : ℚ)| < 1 := by push_cast; exact_mod_cast h2
  have h4 : |roundHalfEven q - m| < 1 := by exact_mod_cast h3
  have h5 := Int.abs_lt_one_iff.mp h4
  omega

/-!  ### Evaluating the float parser on canonical renderings  -/

theorem dropWhile_eq_nil {p : Char → Bool} {l : List Char} (h : ∀ c ∈ l, p c = true) :
    l.dropWhile p = [] := by
  induction l with
  | nil => rfl
  | cons c t ih =>
    rw [List.dropWhile_cons_of_pos (h c (List.mem_cons_self c t))]
    exact ih fun c hc => h c (List.mem_cons_of_mem _ hc)

theorem signSplit_no_sign {c : Char} (cs : List Char) (h1 : c ≠ '-') (h2 : c ≠ '+') :
    signSplit (c :: cs) = (false, c :: cs) := by
  rw [signSplit.eq_def]
  split <;> simp_all

theorem dotSplit_nil : dotSplit [] = ([], []) := rfl

theorem dotSplit_dot (t : List Char) :
    dotSplit ('.' :: t) = (t.takeWhile Char.isDigit, t.dropWhile Char.isDigit) := rfl

/-- The sign characters `fmt_number` may emit. -/
def signChars (b : Bool) : List Char := if b then ['-'] else []

theorem digit_ne_minus {c : Char} (h : c.isDigit = true) : c ≠ '-' :=
  fun e => absurd (e ▸ h) (by decide)

theorem digit_ne_plus {c : Char} (h : c.isDigit = true) : c ≠ '+' :=
  fun e => absurd (e ▸ h) (by decide)

theorem digit_ne_dot {c : Char} (h : c.isDigit = true) : c ≠ '.' :=
  fun e => absurd (e ▸ h) (by decide)

theorem digit_ne_zeroCh {c : Char} (h : c.isDigit = true) : c ≠ ';' :=
  fun e => absurd (e ▸ h) (by decide)

theorem signSplit_signChars (b : Bool) {c : Char} (cs : List Char) (hc : c.isDigit = true) :
    signSplit (signChars b ++ c :: cs) = (b, c :: cs) := by
  cases b
  · exact signSplit_no_sign cs (digit_ne_minus hc) (digit_ne_plus hc)
  · rfl

theorem pyFloatCore_int_shape (b : Bool) (ds : List Char) (hne : ds ≠ [])
    (h : ∀ c ∈ ds, c.isDigit = true) :
    pyFloatCore (signChars b ++ ds) = some ((if b then -1 else 1) * (digitsVal ds : ℚ)) := by
  obtain ⟨c, cs, rfl⟩ := List.exists_cons_of_ne_nil hne
  have hc := h c (List.mem_cons_self c cs)
  simp only [pyFloatCore, signSplit_signChars b cs hc, takeWhile_eq_self h,
    dropWhile_eq_nil h, dotSplit_nil]
  rw [if_neg (by simp)]
  simp only [List.append_nil, List.length_nil, pow_zero, div_one]
  cases b <;> simp

theorem pyFloatCore_dot_shape (b : Bool) (ds1 ds2 : List Char) (h1ne : ds1 ≠ [])
    (h1 : ∀ c ∈ ds1, c.isDigit = true) (h2 : ∀ c ∈ ds2, c.isDigit = true) :
    pyFloatCore (signChars b ++ ds1 ++ '.' :: ds2) =
      some ((if b then -1 else 1) *
        ((digitsVal (ds1 ++ ds2) : ℚ) / (10 : ℚ) ^ ds2.length)) := by
  obtain ⟨c, cs, rfl⟩ := List.exists_cons_of_ne_nil h1ne
  have hc := h1 c (List.mem_cons_self c cs)
  have hassoc : signChars b ++ (c :: cs) ++ '.' :: ds2 =
      signChars b ++ c :: (cs ++ '.' :: ds2) := by simp
  rw [hassoc]
  have hsign := signSplit_signChars b (cs ++ '.' :: ds2) hc
  have htake : (c :: (cs ++ '.' :: ds2)).takeWhile Char.isDigit = c :: cs := by
    have : c :: (cs ++ '.' :: ds2) = (c :: cs) ++ '.' :: ds2 := by simp
    rw [this, List.takeWhile_append_of_pos (by simpa using h1),
      List.takeWhile_cons_of_neg (by decide)]
    simp
  have hdrop : (c :: (cs ++ '.' :: ds2)).dropWhile Char.isDigit = '.' :: ds2 := by
    have : c :: (cs ++ '.' :: ds2) = (c :: cs) ++ '.' :: ds2 := by simp
    rw [this, List.dropWhile_append_of_pos (by simpa using h1),
      List.dropWhile_cons_of_neg (by decide)]
  simp only [pyFloatCore, hsign, htake, hdrop, dotSplit_dot,
    takeWhile_eq_self h2, dropWhile_eq_nil h2]
  rw [if_neg (by simp)]
  cases b <;> simp

/-!  ### Trailing-strip behaviour  -/

theorem dropWhile_beq_concat_ne {c e : Char} (he : e ≠ c) (l : List Char) :
    (l ++ [e]).dropWhile (· == c) = l.dropWhile (· == c) ++ [e] := by
  rw [List.dropWhile_append]
  split
  · rename_i hEmpty
    rw [List.isEmpty_iff] at hEmpty
    rw [hEmpty, List.dropWhile_cons_of_neg (by simp [he]), List.nil_append]
  · rfl

theorem stripRight_concat_ne {c d : Char} (h : d ≠ c) (l : List Char) :
    stripRight c (l ++ [d]) = l ++ [d] := by
  rw [stripRight, List.reverse_append]
  simp only [List.reverse_cons, List.reverse_nil, List.nil_append, List.singleton_append]
  rw [List.dropWhile_cons_of_neg (by simp [h])]
  simp

theorem stripRight_concat_self (c : Char) (l : List Char) :
    stripRight c (l ++ [c]) = stripRight c l := by
  rw [stripRight, stripRight, List.reverse_append]
  simp only [List.reverse_cons, List.reverse_nil, List.nil_append, List.singleton_append]
  rw [List.dropWhile_cons_of_pos (by simp)]

theorem stripRight_append_cons_ne {c e : Char} (he : e ≠ c) (xs ys : List Char) :
    stripRight c (xs ++ e :: ys) = xs ++ e :: stripRight c ys := by
  rw [stripRight, stripRight, List.reverse_append, List.reverse_cons]
  have h1 : ((ys.reverse ++ [e]) ++ xs.reverse).dropWhile (· == c) =
      (ys.reverse.dropWhile (· == c) ++ [e]) ++ xs.reverse := by
    rw [List.dropWhile_append, dropWhile_beq_concat_ne he]
    rw [if_neg (by simp)]
  rw [h1]
  simp

theorem stripRight_decomp (c : Char) (l : List Char) :
    ∃ t, l = stripRight c l ++ List.replicate t c := by
  refine ⟨(l.reverse.takeWhile (· == c)).length, ?_⟩
  have hall : ∀ x ∈ l.reverse.takeWhile (· == c), x = c := by
    intro x hx
    have := List.mem_takeWhile_imp hx
    simpa using this
  have hrep : l.reverse.takeWhile (· == c) =
      List.replicate (l.reverse.takeWhile (· == c)).length c :=
    List.eq_replicate_of_mem hall
  conv_lhs => rw [← l.reverse_reverse,
    ← List.takeWhile_append_dropWhile (p := (· == c)) (l := l.reverse)]
  rw [List.reverse_append, stripRight]
  congr 1
  rw [hrep, List.reverse_replicate, List.length_replicate]

/-!  ### `natChars` length bound  -/

theorem natCharsAux_length_le :
    ∀ fuel n k, n < fuel → 1 ≤ k → n < 10 ^ k → (natCharsAux fuel n).length ≤ k := by
  intro fuel
  induction fuel with
  | zero => intro n k h; omega
  | succ f ih =>
    intro n k hf hk hn
    rw [natCharsAux]
    by_cases h10 : n < 10
    · simp only [if_pos h10, List.length_singleton]
      omega
    · simp only [if_neg h10, List.length_append, List.length_singleton]
      have hdiv : n / 10 < f := by
        have := Nat.div_lt_self (show 0 < n by omega) (show 1 < 10 by omega)
        omega
      have hk2 : 2 ≤ k := by
        by_contra hlt
        have : k = 1 := by omega
        subst this
        simp at hn
        omega
      have hdivpow : n / 10 < 10 ^ (k - 1) := by
        have h1 : n < 10 ^ k := hn
        have h2 : 10 ^ k = 10 ^ (k - 1) * 10 := by
          rw [← pow_succ]
          congr 1
          omega
        omega
      have := ih (n / 10) (k - 1) hdiv (by omega) hdivpow
      omega

theorem natChars_length_le (n k : ℕ) (hk : 1 ≤ k) (h : n < 10 ^ k) :
    (natChars n).length ≤ k :=
  natCharsAux_length_le (n + 1) n k (by omega) hk h

/-!  ### Round trip: the float parser inverts the canonical formatter  -/

theorem pyFloatCore_intChars (i : ℤ) : pyFloatCore (intChars i) = some ((i : ℚ)) := by
  by_cases hi : i < 0
  · have heq : intChars i = signChars true ++ natChars i.natAbs := by
      rw [intChars, if_pos hi]; rfl
    rw [heq, pyFloatCore_int_shape true _ (natChars_ne_nil _) (natChars_isDigit _),
      digitsVal_natChars]
    have hQ : ((i.natAbs : ℚ)) = -(i : ℚ) := by
      rw [Int.cast_natAbs]
      rw [abs_of_neg hi]
      push_cast
      ring
    rw [hQ]
    norm_num
  · have heq : intChars i = signChars false ++ natChars i.natAbs := by
      rw [intChars, if_neg hi]; rfl
    rw [heq, pyFloatCore_int_shape false _ (natChars_ne_nil _) (natChars_isDigit _),
      digitsVal_natChars]
    have hQ : ((i.natAbs : ℚ)) = (i : ℚ) := by
      rw [Int.cast_natAbs]
      rw [abs_of_nonneg (not_lt.mp hi)]
    rw [hQ]
    norm_num

theorem digitsVal_replicate_zeroCh (t : ℕ) : digitsVal (List.replicate t '0') = 0 := by
  have := digitsVal_zeros_append t []
  simpa using this

theorem roundHalfEven_nonneg {q : ℚ} (h : 0 ≤ q) : 0 ≤ roundHalfEven q := by
  have hf0 : 0 ≤ ratFloor q := by
    have h2 := lt_ratFloor_add_one q
    have h3 : (0 : ℚ) < (ratFloor q : ℚ) + 1 := lt_of_le_of_lt h h2
    have h4 : (0 : ℤ) < ratFloor q + 1 := by exact_mod_cast h3
    omega
  simp only [roundHalfEven]
  split
  · exact hf0
  · split
    · omega
    · split <;> omega

theorem roundHalfEven_nonpos {q : ℚ} (h : q < 0) : roundHalfEven q ≤ 0 := by
  have hf0 : ratFloor q + 1 ≤ 0 := by
    have h2 : (ratFloor q : ℚ) < 0 := lt_of_le_of_lt (ratFloor_le q) h
    have h3 : ratFloor q < 0 := by exact_mod_cast h2
    omega
  simp only [roundHalfEven]
  split
  · omega
  · split
    · omega
    · split <;> omega

theorem pyFloatCore_fixed6 (b : Bool) (a : ℕ) :
    pyFloatCore (stripRight '.' (stripRight '0'
        (signChars b ++ natChars (a / 1000000) ++ '.' ::
          (List.replicate (6 - (natChars (a % 1000000)).length) '0' ++
            natChars (a % 1000000))))) =
      some ((if b then -1 else 1) * ((a : ℚ) / 1000000)) := by
  set ip := a / 1000000 with hip
  set fp := a % 1000000 with hfp
  set fd := List.replicate (6 - (natChars fp).length) '0' ++ natChars fp with hfd
  have hfd_digits : ∀ c ∈ fd, c.isDigit = true := by
    intro c hc
    rcases List.mem_append.mp hc with hc | hc
    · rcases List.eq_of_mem_replicate hc with rfl; rfl
    · exact natChars_isDigit _ c hc
  have hlen_le : (natChars fp).length ≤ 6 := by
    refine natChars_length_le fp 6 (by omega) ?_
    have h1 : fp < 1000000 := by omega
    simpa using h1
  have hfd_len : fd.length = 6 := by
    rw [hfd, List.length_append, List.length_replicate]
    omega
  have hfd_val : digitsVal fd = fp := by
    rw [hfd, digitsVal_zeros_append, digitsVal_natChars]
  have hS1 : stripRight '0' (signChars b ++ natChars ip ++ '.' :: fd) =
      signChars b ++ natChars ip ++ '.' :: stripRight '0' fd :=
    stripRight_append_cons_ne (by decide) _ _
  rw [hS1]
  set f : List Char := stripRight '0' fd with hf
  obtain ⟨t, hdecomp⟩ := stripRight_decomp '0' fd
  rw [← hf] at hdecomp
  have hf_digits : ∀ c ∈ f, c.isDigit = true := fun c hc =>
    hfd_digits c (stripRight_subset _ _ c (hf ▸ hc))
  have hlen6 : f.length + t = 6 := by
    have hl := congrArg List.length hdecomp
    simp only [List.length_append, List.length_replicate] at hl
    omega
  have hval : fp = digitsVal f * 10 ^ t := by
    have h1 : digitsVal fd = digitsVal f * 10 ^ t := by
      rw [hdecomp, digitsVal_append, digitsVal_replicate_zeroCh, List.length_replicate]
      omega
    rw [← hfd_val, h1]
  have ha : a = ip * 1000000 + fp := by omega
  rcases eq_or_ne f [] with hfnil | hfne
  · have hfp0 : fp = 0 := by
      rw [hval, hfnil]
      simp [digitsVal]
    rw [hfnil]
    have h1 : signChars b ++ natChars ip ++ '.' :: ([] : List Char) =
        (signChars b ++ natChars ip) ++ ['.'] := by simp
    rw [h1, stripRight_concat_self]
    obtain ⟨L, d, hLd⟩ := (List.eq_nil_or_concat' (natChars ip)).resolve_left (natChars_ne_nil ip)
    have hd_digit : d.isDigit = true := natChars_isDigit ip d (by rw [hLd]; simp)
    have h2 : signChars b ++ natChars ip = (signChars b ++ L) ++ [d] := by
      rw [hLd]; simp
    rw [h2, stripRight_concat_ne (digit_ne_dot hd_digit), ← h2]
    rw [pyFloatCore_int_shape b _ (natChars_ne_nil _) (natChars_isDigit _), digitsVal_natChars]
    have haq : (a : ℚ) = (ip : ℚ) * 1000000 := by
      have h3 : a = ip * 1000000 := by omega
      rw [h3]; push_cast; ring
    rw [haq]
    have hdiv : (ip : ℚ) * 1000000 / 1000000 = (ip : ℚ) := by field_simp
    rw [hdiv]
  · obtain ⟨L, d, hLd⟩ := (List.eq_nil_or_concat' f).resolve_left hfne
    have hd_digit : d.isDigit = true := hf_digits d (by rw [hLd]; simp)
    have h1 : signChars b ++ natChars ip ++ '.' :: f =
        (signChars b ++ natChars ip ++ '.' :: L) ++ [d] := by
      rw [hLd]; simp
    rw [h1, stripRight_concat_ne (digit_ne_dot hd_digit), ← h1]
    rw [pyFloatCore_dot_shape b _ f (natChars_ne_nil _) (natChars_isDigit _) hf_digits]
    have hP : ((10 : ℚ) ^ f.length) ≠ 0 := by positivity
    have h6 : (1000000 : ℚ) = (10 : ℚ) ^ f.length * (10 : ℚ) ^ t := by
      rw [← pow_add, hlen6]
      norm_num
    have hXY : (digitsVal (natChars ip ++ f) : ℚ) / (10 : ℚ) ^ f.length =
        (a : ℚ) / 1000000 := by
      rw [digitsVal_append, digitsVal_natChars]
      have h4 : (10 : ℕ) ^ f.length * 10 ^ t = 1000000 := by
        rw [← pow_add, hlen6]
        norm_num
      have h3 : a = ip * 10 ^ f.length * 10 ^ t + digitsVal f * 10 ^ t := by
        calc a = ip * 1000000 + fp := ha
          _ = ip * (10 ^ f.length * 10 ^ t) + digitsVal f * 10 ^ t := by rw [h4, hval]
          _ = ip * 10 ^ f.length * 10 ^ t + digitsVal f * 10 ^ t := by ring
      rw [h3, h6, div_eq_div_iff hP (by positivity)]
      push_cast
      ring
    rw [hXY]

/-- The float parser inverts `fmt_number`'s value rendering: the canonical
text for `v` re-parses to `canonVal v`. -/
theorem pyFloatCore_fmtValChars (v : ℚ) :
    pyFloatCore (fmtValChars v) = some (canonVal v) := by
  simp only [fmtValChars, canonVal]
  split
  · exact pyFloatCore_intChars _
  · by_cases hv : v < 0
    · rw [if_pos hv]
      rw [show (['-'] : List Char) = signChars true from rfl,
        pyFloatCore_fixed6 true (roundHalfEven (v * 1000000)).natAbs]
      have hn : roundHalfEven (v * 1000000) ≤ 0 :=
        roundHalfEven_nonpos (by nlinarith)
      have hQ : (((roundHalfEven (v * 1000000)).natAbs : ℚ)) =
          -((roundHalfEven (v * 1000000) : ℤ) : ℚ) := by
        rw [Int.cast_natAbs, abs_of_nonpos hn]
        push_cast
        ring
      rw [hQ]
      refine congrArg some ?_
      rw [show (if (true : Bool) then (-1 : ℚ) else 1) = -1 from rfl]
      ring
    · rw [if_neg hv]
      rw [show ([] : List Char) = signChars false from rfl,
        pyFloatCore_fixed6 false (roundHalfEven (v * 1000000)).natAbs]
      have hn : 0 ≤ roundHalfEven (v * 1000000) :=
        roundHalfEven_nonneg (by nlinarith [not_lt.mp hv])
      have hQ : (((roundHalfEven (v * 1000000)).natAbs : ℚ)) =
          ((roundHalfEven (v * 1000000) : ℤ) : ℚ) := by
        rw [Int.cast_natAbs, abs_of_nonneg]
        exact_mod_cast hn
      rw [hQ]
      refine congrArg some ?_
      rw [show (if (false : Bool) then (-1 : ℚ) else 1) = 1 from rfl]
      ring

/-!  ### Canonical records always parse  -/

theorem pyFloatCore_nil : pyFloatCore [] = none := rfl

theorem fmtValChars_ne_nil (v : ℚ) : fmtValChars v ≠ [] := by
  intro h
  have h2 := pyFloatCore_fmtValChars v
  rw [h, pyFloatCore_nil] at h2
  exact Option.noConfusion h2

theorem pyFloatList_fmtValChars (v : ℚ) :
    pyFloatList (fmtValChars v) = some (canonVal v) := by
  rw [pyFloatList,
    trimList_eq_self fun c hc => charOK_not_white (charOK_fmtValChars v c hc)]
  exact pyFloatCore_fmtValChars v

theorem recChars_split (x y : ℚ) :
    ∀ c ∈ recChars x y, c ∈ (['G', '1', ' ', 'X', 'Y'] : List Char) ∨ CharOK c := by
  intro c hc
  rw [recChars] at hc
  simp only [List.append_assoc, List.mem_append, List.mem_cons,
    List.not_mem_nil, or_false] at hc
  rcases hc with (rfl | rfl | rfl | rfl) | hc | (rfl | rfl) | hc
  · exact Or.inl (by decide)
  · exact Or.inl (by decide)
  · exact Or.inl (by decide)
  · exact Or.inl (by decide)
  · exact Or.inr (charOK_fmtValChars x c hc)
  · exact Or.inl (by decide)
  · exact Or.inl (by decide)
  · exact Or.inr (charOK_fmtValChars y c hc)

theorem recChars_ne_special (x y : ℚ) :
    ∀ c ∈ recChars x y, c ≠ ';' ∧ c ≠ '#' ∧ c ≠ ',' := by
  intro c hc
  rcases recChars_split x y c hc with h | h
  · simp only [List.mem_cons, List.not_mem_nil, or_false] at h
    rcases h with rfl | rfl | rfl | rfl | rfl <;> exact ⟨by decide, by decide, by decide⟩
  · exact ⟨charOK_ne h (by decide), charOK_ne h (by decide), charOK_ne h (by decide)⟩

theorem trimList_cons_concat {c d : Char} (m : List Char)
    (hc : c.isWhitespace = false) (hd : d.isWhitespace = false) :
    trimList (c :: (m ++ [d])) = c :: (m ++ [d]) := by
  rw [trimList]
  rw [List.dropWhile_cons_of_neg (by simp [hc])]
  have hrev : (c :: (m ++ [d])).reverse = d :: (m.reverse ++ [c]) := by simp
  rw [hrev, List.dropWhile_cons_of_neg (by simp [hd]), ← hrev, List.reverse_reverse]

theorem spindleStart_cons_ne {c : Char} (cs : List Char) (h : c.toUpper ≠ 'M') :
    spindleStart (c :: cs) = false := by
  rw [spindleStart.eq_def]
  simp only [List.map_cons]
  split <;> simp_all

/-- Every canonical record parses back to its (canonicalized) move.  This is
the round trip behind the loop expander's base re-parse and behind the
document invariant. -/
theorem parse_mkRec (x y : ℚ) :
    parse_g1_xy (mkRec x y) = some (canonVal x, canonVal y) := by
  have hx := charOK_fmtValChars x
  have hy := charOK_fmtValChars y
  obtain ⟨Lb, db, hLb⟩ :=
    (List.eq_nil_or_concat' (fmtValChars y)).resolve_left (fmtValChars_ne_nil y)
  have hdb : CharOK db := hy db (by rw [hLb]; simp)
  show parseXY (recChars x y) = some (canonVal x, canonVal y)
  have hsemi : stripAfter ';' (recChars x y) = recChars x y :=
    stripAfter_eq_self fun c hc => (recChars_ne_special x y c hc).1
  have hhash : stripAfter '#' (recChars x y) = recChars x y :=
    stripAfter_eq_self fun c hc => (recChars_ne_special x y c hc).2.1
  have hshape : recChars x y =
      'G' :: (('1' :: ' ' :: 'X' :: fmtValChars x ++ ' ' :: 'Y' :: Lb) ++ [db]) := by
    rw [recChars, hLb]
    simp
  have htrim : trimList (recChars x y) = recChars x y := by
    rw [hshape]
    exact trimList_cons_concat _ (by decide)
      (charOK_not_white hdb)
  have hne : recChars x y ≠ [] := by rw [hshape]; simp
  have hspindle : spindleStart (recChars x y) = false := by
    rw [hshape]
    exact spindleStart_cons_ne _ (by decide)
  have hcomma : (recChars x y).map commaSpace = recChars x y :=
    map_commaSpace_eq_self fun c hc => (recChars_ne_special x y c hc).2.2
  rw [parseXY, hsemi, hhash, htrim, if_neg hne, if_neg (by simp [hspindle]), hcomma]
  have htok : splitWs (recChars x y) =
      [['G', '1'], 'X' :: fmtValChars x, 'Y' :: fmtValChars y] := by
    have h1 : recChars x y =
        ['G', '1'] ++ ' ' :: (('X' :: fmtValChars x) ++ ' ' :: ('Y' :: fmtValChars y)) := by
      rw [recChars]
      simp
    rw [h1]
    have hcw : ∀ c ∈ (['G', '1'] : List Char), c.isWhitespace = false := by decide
    have hxw : ∀ c ∈ 'X' :: fmtValChars x, c.isWhitespace = false := by
      intro c hc
      rcases List.mem_cons.mp hc with rfl | hc
      · rfl
      · exact charOK_not_white (hx c hc)
    have hyw : ∀ c ∈ 'Y' :: fmtValChars y, c.isWhitespace = false := by
      intro c hc
      rcases List.mem_cons.mp hc with rfl | hc
      · rfl
      · exact charOK_not_white (hy c hc)
    rw [(splitWs_spec ['G', '1'] (by simp) hcw).2,
      (splitWs_spec ('X' :: fmtValChars x) (by simp) hxw).2,
      (splitWs_spec ('Y' :: fmtValChars y) (by simp) hyw).1]
  rw [htok]
  have e1 : ('G'.toUpper = 'X') = False := eq_false (by decide)
  have e2 : ('G'.toUpper = 'Y') = False := eq_false (by decide)
  have e3 : ('X'.toUpper = 'X') = True := eq_true (by decide)
  have e4 : ('Y'.toUpper = 'X') = False := eq_false (by decide)
  have e5 : ('Y'.toUpper = 'Y') = True := eq_true (by decide)
  simp only [scanTokens, pyFloatList_fmtValChars x, pyFloatList_fmtValChars y,
    e1, e2, e3, e4, e5, if_true, if_false]

/-!  ### Characterizing the token scan  -/

/-- A token whose first letter reads as `X` (case-insensitive). -/
def isXTok (t : List Char) : Prop := ∃ c r, t = c :: r ∧ c.toUpper = 'X'

/-- A token whose first letter reads as `Y` (case-insensitive). -/
def isYTok (t : List Char) : Prop := ∃ c r, t = c :: r ∧ c.toUpper = 'Y'

/-- A token that does not abort the scan: if it is an `X`/`Y` token, its
numeric remainder is well-formed. -/
def tokOk (t : List Char) : Prop :=
  ∀ c r, t = c :: r → (c.toUpper = 'X' ∨ c.toUpper = 'Y') →
    (pyFloatList r).isSome = true

theorem tokOk_nil : tokOk [] := fun _ _ h => absurd h (by simp)

theorem isXTok_cons {c : Char} {r : List Char} : isXTok (c :: r) ↔ c.toUpper = 'X' := by
  constructor
  · rintro ⟨c', r', he, hx⟩
    injection he with h1 _
    exact h1 ▸ hx
  · intro h
    exact ⟨c, r, rfl, h⟩

theorem isYTok_cons {c : Char} {r : List Char} : isYTok (c :: r) ↔ c.toUpper = 'Y' := by
  constructor
  · rintro ⟨c', r', he, hy⟩
    injection he with h1 _
    exact h1 ▸ hy
  · intro h
    exact ⟨c, r, rfl, h⟩

theorem not_isXTok_nil : ¬ isXTok [] := by
  rintro ⟨c, r, h, _⟩
  exact List.noConfusion h

theorem not_isYTok_nil : ¬ isYTok [] := by
  rintro ⟨c, r, h, _⟩
  exact List.noConfusion h

theorem tokOk_cons {c : Char} {r : List Char} :
    tokOk (c :: r) ↔
      ((c.toUpper = 'X' ∨ c.toUpper = 'Y') → (pyFloatList r).isSome = true) := by
  constructor
  · intro h hx
    exact h c r rfl hx
  · intro h c' r' he hx
    injection he with h1 h2
    subst h1; subst h2
    exact h hx

/-- What the token scan produces: a move exactly when no `X`/`Y` token is
malformed and at least one `X` token and one `Y` token occur (counting the
accumulators as already-seen tokens). -/
theorem scanTokens_char (ts : List (List Char)) :
    ∀ xv yv : Option ℚ,
      (∃ x y, scanTokens ts xv yv = some (some x, some y)) ↔
        ((∀ t ∈ ts, tokOk t) ∧ (xv.isSome = true ∨ ∃ t ∈ ts, isXTok t) ∧
          (yv.isSome = true ∨ ∃ t ∈ ts, isYTok t)) := by
  induction ts with
  | nil =>
    intro xv yv
    cases xv <;> cases yv <;> simp [scanTokens]
  | cons t ts ih =>
    intro xv yv
    cases t with
    | nil =>
      have hstep : scanTokens ([] :: ts) xv yv = scanTokens ts xv yv := rfl
      rw [hstep, ih xv yv]
      simp [tokOk_nil, not_isXTok_nil, not_isYTok_nil]
    | cons c r =>
      by_cases hcx : c.toUpper = 'X'
      · rcases hpf : pyFloatList r with _ | v
        · have hstep : scanTokens ((c :: r) :: ts) xv yv = none := by
            rw [scanTokens, if_pos hcx, hpf]
          rw [hstep]
          constructor
          · rintro ⟨x, y, h⟩
            exact Option.noConfusion h
          · rintro ⟨hall, -, -⟩
            have := (tokOk_cons.mp (hall _ (List.mem_cons_self _ _))) (Or.inl hcx)
            rw [hpf] at this
            exact Bool.noConfusion this
        · have hstep : scanTokens ((c :: r) :: ts) xv yv = scanTokens ts (some v) yv := by
            rw [scanTokens, if_pos hcx, hpf]
          rw [hstep, ih (some v) yv]
          have hcy : ¬ c.toUpper = 'Y' := by rw [hcx]; decide
          simp [tokOk_cons, isXTok_cons, isYTok_cons, hcx, hcy, hpf]
      · by_cases hcy : c.toUpper = 'Y'
        · rcases hpf : pyFloatList r with _ | v
          · have hstep : scanTokens ((c :: r) :: ts) xv yv = none := by
              rw [scanTokens, if_neg hcx, if_pos hcy, hpf]
            rw [hstep]
            constructor
            · rintro ⟨x, y, h⟩
              exact Option.noConfusion h
            · rintro ⟨hall, -, -⟩
              have := (tokOk_cons.mp (hall _ (List.mem_cons_self _ _))) (Or.inr hcy)
              rw [hpf] at this
              exact Bool.noConfusion this
          · have hstep : scanTokens ((c :: r) :: ts) xv yv = scanTokens ts xv (some v) := by
              rw [scanTokens, if_neg hcx, if_pos hcy, hpf]
            rw [hstep, ih xv (some v)]
            simp [tokOk_cons, isXTok_cons, isYTok_cons, hcx, hcy, hpf]
        · have hstep : scanTokens ((c :: r) :: ts) xv yv = scanTokens ts xv yv := by
            rw [scanTokens, if_neg hcx, if_neg hcy]
          rw [hstep, ih xv yv]
          simp [tokOk_cons, isXTok_cons, isYTok_cons, hcx, hcy]

/-!  ### Characterizing the loop expansion  -/

/-- The group for iteration `k` stays within every set bound. -/
def groupOk (base : List (ℚ × ℚ)) (dx dy : ℚ) (mx my : Option ℚ) (k : ℕ) : Prop :=
  ∀ p ∈ shiftGroup base dx dy k,
    (∀ m, mx = some m → p.1 ≤ m) ∧ (∀ m, my = some m → p.2 ≤ m)

theorem exceeds_eq_false {w : ℚ} {mo : Option ℚ} :
    exceeds w mo = false ↔ ∀ m, mo = some m → w ≤ m := by
  cases mo <;> simp [exceeds]

theorem group_violates_iff_not_groupOk
    (base : List (ℚ × ℚ)) (dx dy : ℚ) (mx my : Option ℚ) (k : ℕ) :
    group_violates base dx dy mx my k = false ↔ groupOk base dx dy mx my k := by
  rw [group_violates, List.any_eq_false]
  constructor
  · intro h p hp
    obtain ⟨q, hq, rfl⟩ := List.mem_map.mp hp
    have h2 := h q hq
    rw [Bool.not_eq_true, Bool.or_eq_false_iff] at h2
    exact ⟨exceeds_eq_false.mp h2.1, exceeds_eq_false.mp h2.2⟩
  · intro h q hq
    have h2 := h (q.1 + dx * k, q.2 + dy * k) (List.mem_map.mpr ⟨q, hq, rfl⟩)
    rw [Bool.not_eq_true, Bool.or_eq_false_iff]
    exact ⟨exceeds_eq_false.mpr h2.1, exceeds_eq_false.mpr h2.2⟩

theorem loop_run_zero (base : List (ℚ × ℚ)) (dx dy : ℚ) (mx my : Option ℚ)
    (k app : ℕ) (lines : List String) :
    loop_run base dx dy mx my 0 k app lines = none := rfl

/-- Whenever the loop finishes within its fuel, the result is exactly: all
groups `k, …, k+n-1` were within bounds and appended whole (through the merge
rule), the counter advanced by `n`, and the loop stopped because group `k+n`
violates a bound (or the base is empty). -/
theorem loop_run_char (base : List (ℚ × ℚ)) (dx dy : ℚ) (mx my : Option ℚ) :
    ∀ (fuel k app : ℕ) (lines : List String) (res : List String × ℕ),
      loop_run base dx dy mx my fuel k app lines = some res →
      ∃ n : ℕ, res = (foldGroups base dx dy k n lines, app + n) ∧
        (∀ j, j < n → groupOk base dx dy mx my (k + j)) ∧
        (¬ groupOk base dx dy mx my (k + n) ∨ base = []) := by
  intro fuel
  induction fuel with
  | zero =>
    intro k app lines res h
    rw [loop_run_zero] at h
    exact Option.noConfusion h
  | succ f ih =>
    intro k app lines res h
    rw [loop_run] at h
    by_cases hv : group_violates base dx dy mx my k = true
    · rw [if_pos hv] at h
      injection h with h
      refine ⟨0, ?_, fun j hj => absurd hj (by omega), Or.inl ?_⟩
      · rw [← h, foldGroups]
        simp
      · intro hok
        rw [← group_violates_iff_not_groupOk] at hok
        rw [Nat.add_zero k] at hok
        rw [hok] at hv
        exact Bool.noConfusion hv
    · rw [if_neg hv] at h
      by_cases hb : base = []
      · rw [if_pos hb] at h
        injection h with h
        refine ⟨0, ?_, fun j hj => absurd hj (by omega), Or.inr hb⟩
        rw [← h, foldGroups]
        simp
      · rw [if_neg hb] at h
        obtain ⟨n, hres, hall, hstop⟩ := ih (k + 1) (app + 1) (appendGroup base dx dy k lines) res h
        refine ⟨n + 1, ?_, ?_, ?_⟩
        · rw [hres]
          have hfold : foldGroups base dx dy k (n + 1) lines =
              foldGroups base dx dy (k + 1) n (appendGroup base dx dy k lines) := rfl
          rw [hfold]
          have : app + 1 + n = app + (n + 1) := by omega
          rw [this]
        · intro j hj
          cases j with
          | zero =>
            rw [Nat.add_zero]
            rw [← group_violates_iff_not_groupOk]
            exact Bool.eq_false_iff.mpr hv
          | succ j' =>
            have := hall j' (by omega)
            have heq : k + 1 + j' = k + (j' + 1) := by omega
            rwa [heq] at this
        · have heq : k + 1 + n = k + (n + 1) := by omega
          rwa [heq] at hstop

/-- When the very first candidate group already violates a bound, the loop
appends nothing and reports zero groups. -/
theorem loop_run_first_violates (base : List (ℚ × ℚ)) (dx dy : ℚ) (mx my : Option ℚ)
    (fuel : ℕ) (lines : List String) (hf : 0 < fuel)
    (h : group_violates base dx dy mx my 1 = true) :
    loop_run base dx dy mx my fuel 1 0 lines = some (lines, 0) := by
  cases fuel with
  | zero => omega
  | succ f =>
    rw [loop_run, if_pos h]

/-!  ### The merge-on-append dichotomy  -/

theorem add_or_merge_merge (xn yn : ℚ) (lines : List String) (l p : ℚ × ℚ)
    (h1 : (lines.getLast?).bind parse_g1_xy = some l)
    (h2 : (lines.dropLast.getLast?).bind parse_g1_xy = some p)
    (hc : (|l.2 - yn| ≤ TOL ∧ |p.2 - yn| ≤ TOL) ∨
      (|l.1 - xn| ≤ TOL ∧ |p.1 - xn| ≤ TOL)) :
    add_or_merge_line xn yn lines = lines.dropLast ++ [mkRec xn yn] := by
  simp only [add_or_merge_line, h1, h2]
  split
  · rfl
  · split
    · rfl
    · rename_i hy hx
      rcases hc with hc | hc
      · exact absurd hc hy
      · exact absurd hc hx

theorem add_or_merge_append (xn yn : ℚ) (lines : List String)
    (h : ∀ l p : ℚ × ℚ, (lines.getLast?).bind parse_g1_xy = some l →
      (lines.dropLast.getLast?).bind parse_g1_xy = some p →
      ¬ ((|l.2 - yn| ≤ TOL ∧ |p.2 - yn| ≤ TOL) ∨
        (|l.1 - xn| ≤ TOL ∧ |p.1 - xn| ≤ TOL))) :
    add_or_merge_line xn yn lines = lines ++ [mkRec xn yn] := by
  simp only [add_or_merge_line]
  split
  · rename_i l p h1 h2
    have hc := h l p h1 h2
    split
    · rename_i hy
      exact absurd (Or.inl hy) hc
    · split
      · rename_i hx
        exact absurd (Or.inr hx) hc
      · rfl
  · rfl

theorem add_or_merge_cases (xn yn : ℚ) (lines : List String) :
    add_or_merge_line xn yn lines = lines.dropLast ++ [mkRec xn yn] ∨
      add_or_merge_line xn yn lines = lines ++ [mkRec xn yn] := by
  simp only [add_or_merge_line]
  split
  · split
    · left; rfl
    · split
      · left; rfl
      · right; rfl
  · right; rfl

theorem add_or_merge_merge_length (xn yn : ℚ) (lines : List String) (l p : ℚ × ℚ)
    (h1 : (lines.getLast?).bind parse_g1_xy = some l)
    (h2 : (lines.dropLast.getLast?).bind parse_g1_xy = some p)
    (hc : (|l.2 - yn| ≤ TOL ∧ |p.2 - yn| ≤ TOL) ∨
      (|l.1 - xn| ≤ TOL ∧ |p.1 - xn| ≤ TOL)) :
    (add_or_merge_line xn yn lines).length = lines.length := by
  rw [add_or_merge_merge xn yn lines l p h1 h2 hc]
  have hne : lines.dropLast ≠ [] := by
    intro hnil
    rw [hnil] at h2
    simp at h2
  have hpos : 0 < lines.length := by
    cases lines with
    | nil => exact absurd rfl hne
    | cons a t => simp
  rw [List.length_append, List.length_dropLast, List.length_singleton]
  omega

/-!  ### The record invariant  -/

/-- A record with the engine's canonical textual shape `G1 X<num> Y<num>`. -/
def CanonRec (s : String) : Prop := ∃ a b : ℚ, s = mkRec a b

/-- The engine invariant: every stored record and every snapshotted record is
canonical. -/
def InvState (st : DocState) : Prop :=
  (∀ s ∈ st.gcode_lines, CanonRec s) ∧
    ∀ l, st.last_snapshot = some l → ∀ s ∈ l, CanonRec s

theorem canonRec_mkRec (x y : ℚ) : CanonRec (mkRec x y) := ⟨x, y, rfl⟩

theorem add_or_merge_preserves {lines : List String}
    (h : ∀ s ∈ lines, CanonRec s) (xn yn : ℚ) :
    ∀ s ∈ add_or_merge_line xn yn lines, CanonRec s := by
  intro s hs
  rcases add_or_merge_cases xn yn lines with hcase | hcase <;> rw [hcase] at hs <;>
    rcases List.mem_append.mp hs with hs | hs
  · exact h s ((List.dropLast_sublist lines).subset hs)
  · rcases List.mem_singleton.mp hs with rfl
    exact canonRec_mkRec xn yn
  · exact h s hs
  · rcases List.mem_singleton.mp hs with rfl
    exact canonRec_mkRec xn yn

theorem foldl_add_or_merge_preserves (g : List (ℚ × ℚ)) :
    ∀ lines : List String, (∀ s ∈ lines, CanonRec s) →
      ∀ s ∈ g.foldl (fun ls p => add_or_merge_line p.1 p.2 ls) lines, CanonRec s := by
  induction g with
  | nil => intro lines h; exact h
  | cons q g ih =>
    intro lines h
    exact ih _ (add_or_merge_preserves h q.1 q.2)

theorem loop_run_preserves (base : List (ℚ × ℚ)) (dx dy : ℚ) (mx my : Option ℚ) :
    ∀ (fuel k app : ℕ) (lines : List String) (res : List String × ℕ),
      loop_run base dx dy mx my fuel k app lines = some res →
      (∀ s ∈ lines, CanonRec s) → ∀ s ∈ res.1, CanonRec s := by
  intro fuel
  induction fuel with
  | zero =>
    intro k app lines res h
    rw [loop_run_zero] at h
    exact absurd h (by simp)
  | succ f ih =>
    intro k app lines res h hinv
    rw [loop_run] at h
    by_cases hv : group_violates base dx dy mx my k = true
    · rw [if_pos hv] at h
      injection h with h
      rw [← h]
      exact hinv
    · rw [if_neg hv] at h
      by_cases hb : base = []
      · rw [if_pos hb] at h
        injection h with h
        rw [← h]
        exact hinv
      · rw [if_neg hb] at h
        exact ih _ _ _ _ h (foldl_add_or_merge_preserves _ _ hinv)

theorem base_of_lines_ne_none {lines : List String} (h : ∀ s ∈ lines, CanonRec s) :
    base_of_lines lines ≠ none := by
  induction lines with
  | nil => simp [base_of_lines]
  | cons s rest ih =>
    obtain ⟨a, b, rfl⟩ := h s (List.mem_cons_self s rest)
    rw [base_of_lines, parse_mkRec]
    rcases hb : base_of_lines rest with _ | bs
    · exact absurd hb (ih fun s hs => h s (List.mem_cons_of_mem _ hs))
    · simp

theorem snapshot_preserves {st : DocState} (h : InvState st) : InvState (snapshot st) := by
  refine ⟨h.1, fun l hl => ?_⟩
  rw [snapshot] at hl
  simp only [Option.some.injEq] at hl
  rw [← hl]
  exact h.1

theorem submit_line_preserves (x y : String) {st : DocState} (h : InvState st) :
    InvState (submit_line x y st).1 := by
  simp only [submit_line]
  by_cases hxy : fmt_number x = "" ∨ fmt_number y = ""
  · rw [if_pos hxy]; exact h
  · rw [if_neg hxy]
    split
    · exact ⟨add_or_merge_preserves h.1 _ _, (snapshot_preserves h).2⟩
    · exact snapshot_preserves h

theorem remove_selected_preserves (sel : List ℕ) {st : DocState} (h : InvState st) :
    InvState (remove_selected sel st) := by
  simp only [remove_selected]
  by_cases hsel : sel = []
  · rw [if_pos hsel]; exact h
  · rw [if_neg hsel]
    refine ⟨?_, (snapshot_preserves h).2⟩
    have hsub : ∀ (idxs : List ℕ) (ls : List String), (∀ s ∈ ls, CanonRec s) →
        ∀ s ∈ idxs.foldl (fun ls i => ls.eraseIdx i) ls, CanonRec s := by
      intro idxs
      induction idxs with
      | nil => intro ls h s hs; exact h s hs
      | cons i t ih =>
        intro ls h
        exact ih _ fun s hs => h s ((List.eraseIdx_sublist ls i).subset hs)
    exact hsub sel.reverse st.gcode_lines h.1

theorem clear_all_lines_preserves {st : DocState} (h : InvState st) :
    InvState (clear_all_lines st) := by
  simp only [clear_all_lines]
  by_cases hl : st.gcode_lines = []
  · rw [if_pos hl]; exact h
  · rw [if_neg hl]
    exact ⟨by simp, (snapshot_preserves h).2⟩

theorem restore_snapshot_preserves {st : DocState} (h : InvState st) :
    InvState (restore_snapshot st) := by
  simp only [restore_snapshot]
  split
  · exact h
  · rename_i l hl
    exact ⟨h.2 l hl, fun l' hl' => h.2 l' hl'⟩

theorem import_lines_preserves (raw : List String) (rep : Bool) {st : DocState}
    (h : InvState st) : InvState (import_lines raw rep st).1 := by
  simp only [import_lines]
  by_cases hp : raw.filterMap parse_g1_xy = []
  · rw [if_pos hp]; exact h
  · rw [if_neg hp]
    refine ⟨foldl_add_or_merge_preserves _ _ ?_, (snapshot_preserves h).2⟩
    split
    · intro s hs
      simp at hs
    · exact h.1

theorem loop_block_finished_inv {mx my dx dy : String} {fuel : ℕ} {st st' : DocState}
    {n : ℕ} (h : loop_block mx my dx dy fuel st = .finished st' n) (hinv : InvState st) :
    InvState st' ∧ st'.last_snapshot = some st.gcode_lines := by
  simp only [loop_block] at h
  by_cases h1 : st.gcode_lines = []
  · rw [if_pos h1] at h
    exact absurd h (by simp)
  · rw [if_neg h1] at h
    by_cases h2 : parse_float mx = none ∧ parse_float my = none
    · rw [if_pos h2] at h
      exact absurd h (by simp)
    · rw [if_neg h2] at h
      split at h
      · exact absurd h (by simp)
      · rename_i base h3
        split at h
        · exact absurd h (by simp)
        · rename_i ls app h4
          injection h with h5 h6
          rw [← h5]
          refine ⟨⟨?_, (snapshot_preserves hinv).2⟩, rfl⟩
          exact loop_run_preserves _ _ _ _ _ fuel 1 0 _ (ls, app) h4 hinv.1

theorem loop_block_not_rejected {mx my dx dy : String} {fuel : ℕ} {st : DocState}
    (h1 : st.gcode_lines ≠ []) (h2 : ¬ (parse_float mx = none ∧ parse_float my = none))
    (h3 : base_of_lines st.gcode_lines ≠ none) (st'' : DocState) :
    loop_block mx my dx dy fuel st ≠ .rejected st'' := by
  intro h
  simp only [loop_block] at h
  rw [if_neg h1, if_neg h2] at h
  split at h
  · rename_i hb
    exact h3 hb
  · split at h
    · exact absurd h (by simp)
    · exact absurd h (by simp)

theorem loop_block_rejected_empty {mx my dx dy : String} {fuel : ℕ} {st : DocState}
    (h : st.gcode_lines = []) : loop_block mx my dx dy fuel st = .rejected st := by
  simp only [loop_block]
  rw [if_pos h]

theorem loop_block_rejected_noBounds {mx my dx dy : String} {fuel : ℕ} {st : DocState}
    (hx : parse_float mx = none) (hy : parse_float my = none) :
    loop_block mx my dx dy fuel st = .rejected st := by
  simp only [loop_block]
  by_cases h1 : st.gcode_lines = []
  · rw [if_pos h1]
  · rw [if_neg h1, if_pos ⟨hx, hy⟩]

theorem submit_line_ok_snapshot {x y : String} {st r : DocState}
    (h : submit_line x y st = (r, true)) : r.last_snapshot = some st.gcode_lines := by
  simp only [submit_line] at h
  by_cases hxy : fmt_number x = "" ∨ fmt_number y = ""
  · rw [if_pos hxy] at h
    injection h with h5 h6
    exact absurd h6 (by simp)
  · rw [if_neg hxy] at h
    split at h
    · injection h with h5 h6
      rw [← h5]
      rfl
    · injection h with h5 h6
      exact absurd h6 (by simp)

theorem import_lines_snapshot {raw : List String} {rep : Bool} {st r : DocState}
    {i k : ℕ} (h : import_lines raw rep st = (r, i, k)) (hi : 0 < i) :
    r.last_snapshot = some st.gcode_lines := by
  simp only [import_lines] at h
  by_cases hp : raw.filterMap parse_g1_xy = []
  · rw [if_pos hp] at h
    injection h with h5 h6
    injection h6 with h6 h7
    omega
  · rw [if_neg hp] at h
    injection h with h5 h6
    rw [← h5]
    rfl

theorem loop_block_finished_snapshot {mx my dx dy : String} {fuel : ℕ}
    {st st' : DocState} {n : ℕ} (h : loop_block mx my dx dy fuel st = .finished st' n) :
    st'.last_snapshot = some st.gcode_lines := by
  simp only [loop_block] at h
  by_cases h1 : st.gcode_lines = []
  · rw [if_pos h1] at h
    exact absurd h (by simp)
  · rw [if_neg h1] at h
    by_cases h2 : parse_float mx = none ∧ parse_float my = none
    · rw [if_pos h2] at h
      exact absurd h (by simp)
    · rw [if_neg h2] at h
      split at h
      · exact absurd h (by simp)
      · split at h
        · exact absurd h (by simp)
        · injection h with h5 h6
          rw [← h5]
          rfl

theorem loop_block_finished_run {mx my dx dy : String} {fuel : ℕ} {st st' : DocState}
    {n : ℕ} (h : loop_block mx my dx dy fuel st = .finished st' n) :
    ∃ base, base_of_lines st.gcode_lines = some base ∧
      loop_run base ((parse_float dx).getD 0) ((parse_float dy).getD 0)
        (parse_float mx) (parse_float my) fuel 1 0 st.gcode_lines =
          some (st'.gcode_lines, n) := by
  simp only [loop_block] at h
  by_cases h1 : st.gcode_lines = []
  · rw [if_pos h1] at h
    exact absurd h (by simp)
  · rw [if_neg h1] at h
    by_cases h2 : parse_float mx = none ∧ parse_float my = none
    · rw [if_pos h2] at h
      exact absurd h (by simp)
    · rw [if_neg h2] at h
      split at h
      · exact absurd h (by simp)
      · rename_i base h3
        split at h
        · exact absurd h (by simp)
        · rename_i ls app h4
          injection h with h5 h6
          refine ⟨base, h3, ?_⟩
          rw [← h5, ← h6]
          exact h4

/-!  ### The zero-delta loop never terminates  -/

theorem loop_run_zero_delta_diverges :
    ∀ (fuel k app : ℕ) (lines : List String),
      loop_run [((0 : ℚ), (0 : ℚ))] 0 0 (some 5) none fuel k app lines = none := by
  intro fuel
  induction fuel with
  | zero => intro k app lines; rfl
  | succ f ih =>
    intro k app lines
    rw [loop_run]
    have hv : group_violates [((0 : ℚ), (0 : ℚ))] 0 0 (some 5) none k = false := by
      rw [group_violates]
      simp only [List.any_cons, List.any_nil, Bool.or_false]
      have e1 : exceeds (((0 : ℚ), (0 : ℚ)).1 + 0 * k) (some 5) = false := by
        rw [exceeds]
        simp only [zero_mul, add_zero]
        decide
      have e2 : exceeds (((0 : ℚ), (0 : ℚ)).2 + 0 * k) none = false := rfl
      rw [e1, e2]
      rfl
    rw [if_neg (by rw [hv]; decide), if_neg (by simp)]
    exact ih (k + 1) (app + 1) _

/-!  ### Helpers for the canonicalization claims  -/

theorem natChars_no_dot (n : ℕ) : '.' ∉ natChars n := fun h =>
  absurd (natChars_isDigit n '.' h) (by decide)

theorem intChars_no_dot (i : ℤ) : '.' ∉ intChars i := by
  intro h
  rw [intChars] at h
  split at h
  · rcases List.mem_cons.mp h with h | h
    · exact absurd h (by decide)
    · exact natChars_no_dot _ h
  · exact natChars_no_dot _ h

theorem stripRight_all_eq {c : Char} {l : List Char} (h : ∀ x ∈ l, x = c) :
    stripRight c l = [] := by
  rw [stripRight]
  rw [dropWhile_eq_nil fun x hx => by simp [h x (List.mem_reverse.mp hx)]]
  rfl

theorem strip6_no_dot (b : Bool) (a : ℕ) (hfp : a % 1000000 = 0) :
    stripRight '.' (stripRight '0'
        (signChars b ++ natChars (a / 1000000) ++ '.' ::
          (List.replicate (6 - (natChars (a % 1000000)).length) '0' ++
            natChars (a % 1000000)))) =
      signChars b ++ natChars (a / 1000000) := by
  rw [hfp]
  have h0 : natChars 0 = ['0'] := rfl
  rw [h0]
  have hall : ∀ x ∈ (List.replicate (6 - (['0'] : List Char).length) '0' ++
      (['0'] : List Char)), x = '0' := by
    intro x hx
    rcases List.mem_append.mp hx with hx | hx
    · exact List.eq_of_mem_replicate hx
    · exact List.mem_singleton.mp hx
  rw [stripRight_append_cons_ne (by decide), stripRight_all_eq hall]
  have h1 : signChars b ++ natChars (a / 1000000) ++ '.' :: ([] : List Char) =
      (signChars b ++ natChars (a / 1000000)) ++ ['.'] := by simp
  rw [h1, stripRight_concat_self]
  obtain ⟨L, d, hLd⟩ := (List.eq_nil_or_concat' (natChars (a / 1000000))).resolve_left
    (natChars_ne_nil _)
  have hd : d.isDigit = true := natChars_isDigit _ d (by rw [hLd]; simp)
  have h2 : signChars b ++ natChars (a / 1000000) = (signChars b ++ L) ++ [d] := by
    rw [hLd]
    simp
  rw [h2, stripRight_concat_ne (digit_ne_dot hd), ← h2]

theorem fmtValChars_no_dot {v : ℚ} {n : ℤ} (hn : |v - (n : ℚ)| < TOL) :
    '.' ∉ fmtValChars v := by
  simp only [fmtValChars]
  split
  · exact intChars_no_dot _
  · have hr : roundHalfEven (v * 1000000) = n * 1000000 := by
      apply roundHalfEven_eq_of_near
      have habs : |v * 1000000 - ((n * 1000000 : ℤ) : ℚ)| = |v - (n : ℚ)| * 1000000 := by
        rw [show |v - (n : ℚ)| * 1000000 = |(v - (n : ℚ)) * 1000000| from by
          rw [abs_mul]; norm_num]
        congr 1
        push_cast
        ring
      rw [habs]
      calc |v - (n : ℚ)| * 1000000 < TOL * 1000000 :=
            mul_lt_mul_of_pos_right hn (by norm_num)
        _ < 1 / 2 := by rw [TOL]; norm_num
    have hfp : (roundHalfEven (v * 1000000)).natAbs % 1000000 = 0 := by
      rw [hr, Int.natAbs_mul]
      simp [Nat.mul_mod_left]
    intro hmem
    by_cases hv : v < 0
    · rw [if_pos hv, show (['-'] : List Char) = signChars true from rfl,
        strip6_no_dot true _ hfp] at hmem
      rcases List.mem_append.mp hmem with hm | hm
      · exact absurd (List.mem_singleton.mp hm) (by decide)
      · exact natChars_no_dot _ hm
    · rw [if_neg hv, show ([] : List Char) = signChars false from rfl,
        strip6_no_dot false _ hfp] at hmem
      rcases List.mem_append.mp hmem with hm | hm
      · simp [signChars] at hm
      · exact natChars_no_dot _ hm

theorem fmt_number_empty_of_none {s : String} (h : pyFloat s = none) :
    fmt_number s = "" := by
  simp only [fmt_number]
  rw [pyFloat, pyFloatList] at h
  by_cases hnil : trimList s.toList = []
  · rw [if_pos hnil]
  · rw [if_neg hnil]
    split
    · rename_i v hveq
      rw [hveq] at h
      exact absurd h (by simp)
    · rfl

theorem fmt_number_eq_of_parse {s : String} {v : ℚ} (h : pyFloat s = some v) :
    fmt_number s = String.mk (fmtValChars v) := by
  simp only [fmt_number]
  rw [pyFloat, pyFloatList] at h
  by_cases hnil : trimList s.toList = []
  · rw [hnil, pyFloatCore_nil] at h
    exact absurd h (by simp)
  · rw [if_neg hnil]
    split
    · rename_i w hw
      rw [hw] at h
      injection h with h
      rw [h]
    · rename_i hw
      rw [hw] at h
      exact absurd h (by simp)

/-!  ### Helpers for the export claim  -/

theorem startsWithChars_pair {a b : Char} {l : List Char} :
    startsWithChars [a, b] l = true ↔ ∃ r, l = a :: b :: r := by
  cases l with
  | nil => simp [startsWithChars]
  | cons c cs =>
    cases cs with
    | nil =>
      simp only [startsWithChars, Bool.and_eq_true]
      constructor
      · rintro ⟨-, h⟩
        exact absurd h (by simp [startsWithChars])
      · rintro ⟨r, h⟩
        exact absurd h (by simp)
    | cons d ds =>
      simp only [startsWithChars, Bool.and_eq_true, beq_iff_eq]
      constructor
      · rintro ⟨h1, h2, -⟩
        exact ⟨ds, by rw [h1, h2]⟩
      · rintro ⟨r, h⟩
        injection h with h1 h2
        injection h2 with h2 h3
        exact ⟨h1.symm, h2.symm, by simp [startsWithChars]⟩

theorem hasSub_pair_iff {a b : Char} {l : List Char} :
    hasSub [a, b] l = true ↔ ∃ l1 l2, l = l1 ++ a :: b :: l2 := by
  induction l with
  | nil =>
    simp [hasSub, startsWithChars]
  | cons c cs ih =>
    rw [hasSub, Bool.or_eq_true, startsWithChars_pair, ih]
    constructor
    · rintro (⟨r, he⟩ | ⟨l1, l2, he⟩)
      · exact ⟨[], r, by rw [he]; rfl⟩
      · exact ⟨c :: l1, l2, by rw [he]; rfl⟩
    · rintro ⟨l1, l2, he⟩
      cases l1 with
      | nil =>
        left
        exact ⟨l2, by simpa using he⟩
      | cons d l1' =>
        right
        injection he with h1 h2
        exact ⟨l1', l2, h2⟩

theorem specFeedField_iff (f : String) :
    specFeedField f ↔
      (hasSub [' ', 'F'] f.toList = true ∨ hasSub ['\t', 'F'] f.toList = true) := by
  rw [specFeedField, hasSub_pair_iff, hasSub_pair_iff]

theorem restore_restore (st : DocState) :
    restore_snapshot (restore_snapshot st) = restore_snapshot st := by
  rcases st with ⟨g, _ | l⟩
  · rfl
  · rfl

theorem save_gcode_cons {st : DocState} {f : String} {rest : List String}
    (h : st.gcode_lines = f :: rest) :
    save_gcode st = some ("M3" ::
      (if hasSub [' ', 'F'] f.toList = false ∧ hasSub ['\t', 'F'] f.toList = false
        then f ++ " F200" else f) :: (rest ++ ["M5"])) := by
  rw [save_gcode.eq_def]
  split
  · rename_i hnil
    rw [h] at hnil
    exact List.noConfusion hnil
  · rename_i f' rest' heq
    rw [h] at heq
    injection heq with h1 h2
    rw [← h1, ← h2]

theorem save_gcode_nil {st : DocState} (h : st.gcode_lines = []) :
    save_gcode st = none := by
  rw [save_gcode.eq_def]
  split
  · rfl
  · rename_i f' rest' heq
    rw [h] at heq
    exact List.noConfusion heq

/-!  ## The claims  -/

/-- C1 (confirmed).  Merge-on-append rule: when the last two records both
re-parse and both share `Y` with the new move within the tolerance
`TOL = 1e-9` — or, failing that, both share `X` — the new canonical record
overwrites the last record and the sequence does not grow; in every other
case the record is appended at the end.  Appending `(0,0), (5,0), (10,0)` to
an empty document yields exactly `["G1 X0 Y0", "G1 X10 Y0"]`, and appending
`(0,0), (5,0), (5,5)` yields 3 distinct records. -/
theorem C1_merge_on_append :
    (∀ (xn yn : ℚ) (lines : List String) (l p : ℚ × ℚ),
      (lines.getLast?).bind parse_g1_xy = some l →
      (lines.dropLast.getLast?).bind parse_g1_xy = some p →
      (|l.2 - yn| ≤ TOL ∧ |p.2 - yn| ≤ TOL) ∨
        (|l.1 - xn| ≤ TOL ∧ |p.1 - xn| ≤ TOL) →
      add_or_merge_line xn yn lines = lines.dropLast ++ [mkRec xn yn] ∧
        (add_or_merge_line xn yn lines).length = lines.length) ∧
    (∀ (xn yn : ℚ) (lines : List String),
      (∀ l p : ℚ × ℚ, (lines.getLast?).bind parse_g1_xy = some l →
        (lines.dropLast.getLast?).bind parse_g1_xy = some p →
        ¬ ((|l.2 - yn| ≤ TOL ∧ |p.2 - yn| ≤ TOL) ∨
          (|l.1 - xn| ≤ TOL ∧ |p.1 - xn| ≤ TOL))) →
      add_or_merge_line xn yn lines = lines ++ [mkRec xn yn]) ∧
    add_or_merge_line 10 0 (add_or_merge_line 5 0 (add_or_merge_line 0 0 [])) =
      ["G1 X0 Y0", "G1 X10 Y0"] ∧
    add_or_merge_line 5 5 (add_or_merge_line 5 0 (add_or_merge_line 0 0 [])) =
      ["G1 X0 Y0", "G1 X5 Y0", "G1 X5 Y5"] :=
  ⟨fun xn yn lines l p h1 h2 hc =>
      ⟨add_or_merge_merge xn yn lines l p h1 h2 hc,
        add_or_merge_merge_length xn yn lines l p h1 h2 hc⟩,
    fun xn yn lines h => add_or_merge_append xn yn lines h,
    by decide, by decide⟩

/-- Witness for C1 at the document `["G1 X0 Y0", "G1 X5 Y0"]` with the new
move `(10, 0)`: the merge branch fires and the length is conserved. -/
theorem C1_merge_on_append_witness :
    add_or_merge_line 10 0 ["G1 X0 Y0", "G1 X5 Y0"] =
        (["G1 X0 Y0", "G1 X5 Y0"] : List String).dropLast ++ [mkRec 10 0] ∧
      (add_or_merge_line 10 0 ["G1 X0 Y0", "G1 X5 Y0"]).length =
        (["G1 X0 Y0", "G1 X5 Y0"] : List String).length :=
  C1_merge_on_append.1 10 0 ["G1 X0 Y0", "G1 X5 Y0"] ((5 : ℚ), (0 : ℚ))
    ((0 : ℚ), (0 : ℚ)) (by decide) (by decide) (by decide)

/-- C2 (confirmed).  Loop expansion: whenever `loop_block` finishes with `n`
groups, the final records are exactly the base shifted by `(dx·k, dy·k)` for
`k = 1, …, n`, each group appended whole through the merge-on-append rule;
every appended group was within every set bound, and the loop stopped because
group `n+1` violates a bound (or the base is empty) — so no partial group and
no move exceeding a set bound is ever appended.  When the very first
candidate group violates a bound, nothing is appended and the count is 0.
For base `[(0,0),(1,0)]`, `dx=2`, `dy=0`, `max_x=5`, `max_y` unset, exactly
the groups for `k=1` and `k=2` are appended and the reported count is 2. -/
theorem C2_loop_expansion :
    (∀ (mx my dx dy : String) (fuel : ℕ) (st st' : DocState) (n : ℕ),
      loop_block mx my dx dy fuel st = .finished st' n →
      ∃ base, base_of_lines st.gcode_lines = some base ∧
        st'.gcode_lines = foldGroups base ((parse_float dx).getD 0)
          ((parse_float dy).getD 0) 1 n st.gcode_lines ∧
        (∀ j, j < n → groupOk base ((parse_float dx).getD 0)
          ((parse_float dy).getD 0) (parse_float mx) (parse_float my) (1 + j)) ∧
        (¬ groupOk base ((parse_float dx).getD 0) ((parse_float dy).getD 0)
          (parse_float mx) (parse_float my) (1 + n) ∨ base = [])) ∧
    (∀ (base : List (ℚ × ℚ)) (dx dy : ℚ) (mx my : Option ℚ) (fuel : ℕ)
        (lines : List String), 0 < fuel → ¬ groupOk base dx dy mx my 1 →
      loop_run base dx dy mx my fuel 1 0 lines = some (lines, 0)) ∧
    loop_block "5" "" "2" "0" 10 ⟨["G1 X0 Y0", "G1 X1 Y0"], none⟩ =
      .finished ⟨["G1 X0 Y0", "G1 X5 Y0"], some ["G1 X0 Y0", "G1 X1 Y0"]⟩ 2 := by
  refine ⟨?_, ?_, by decide⟩
  · intro mx my dx dy fuel st st' n h
    obtain ⟨base, hb, hrun⟩ := loop_block_finished_run h
    obtain ⟨m, hres, hall, hstop⟩ := loop_run_char base _ _ _ _ fuel 1 0
      st.gcode_lines (st'.gcode_lines, n) hrun
    injection hres with hres1 hres2
    have hm : m = n := by omega
    subst hm
    exact ⟨base, hb, hres1, hall, hstop⟩
  · intro base dx dy mx my fuel lines hf hng
    apply loop_run_first_violates base dx dy mx my fuel lines hf
    cases hgv : group_violates base dx dy mx my 1 with
    | false =>
      exact absurd ((group_violates_iff_not_groupOk base dx dy mx my 1).mp hgv) hng
    | true => rfl

/-- Witness for C2 at the concrete finished run `loop_block "5" "" "2" "0"`
on `["G1 X0 Y0", "G1 X1 Y0"]`, which appends exactly 2 whole groups. -/
theorem C2_loop_expansion_witness :
    ∃ base, base_of_lines (["G1 X0 Y0", "G1 X1 Y0"] : List String) = some base ∧
      (["G1 X0 Y0", "G1 X5 Y0"] : List String) =
        foldGroups base ((parse_float "2").getD 0) ((parse_float "0").getD 0) 1 2
          ["G1 X0 Y0", "G1 X1 Y0"] ∧
      (∀ j, j < 2 → groupOk base ((parse_float "2").getD 0)
        ((parse_float "0").getD 0) (parse_float "5") (parse_float "") (1 + j)) ∧
      (¬ groupOk base ((parse_float "2").getD 0) ((parse_float "0").getD 0)
        (parse_float "5") (parse_float "") (1 + 2) ∨ base = []) :=
  C2_loop_expansion.1 "5" "" "2" "0" 10 ⟨["G1 X0 Y0", "G1 X1 Y0"], none⟩
    ⟨["G1 X0 Y0", "G1 X5 Y0"], some ["G1 X0 Y0", "G1 X1 Y0"]⟩ 2 (by decide)

/-- C3 (code bug).  The claim says that with both deltas zero the operation
rejects immediately with a "no progress" condition.  The source has no such
guard: with the one-record document `["G1 X0 Y0"]`, `max_x = 5`, `max_y`
unset and `dx = dy = 0`, every candidate group equals the base, never exceeds
the bound, and the `while True` loop never stops — for every fuel the run is
still in progress (`outOfFuel`), and in particular the operation never
rejects. -/
theorem C3_loop_zero_delta_divergence :
    (∀ fuel : ℕ,
      loop_block "5" "" "0" "0" fuel ⟨["G1 X0 Y0"], none⟩ = .outOfFuel) ∧
    ∀ (st'' : DocState) (fuel : ℕ),
      loop_block "5" "" "0" "0" fuel ⟨["G1 X0 Y0"], none⟩ ≠ .rejected st'' := by
  have hmain : ∀ fuel : ℕ,
      loop_block "5" "" "0" "0" fuel ⟨["G1 X0 Y0"], none⟩ = .outOfFuel := by
    intro fuel
    simp only [loop_block]
    rw [if_neg (by decide), if_neg (by decide)]
    split
    · rename_i hb
      exact absurd hb (by decide)
    · rename_i base hb
      have hb2 : base_of_lines (⟨["G1 X0 Y0"], none⟩ : DocState).gcode_lines =
          some [((0 : ℚ), (0 : ℚ))] := by decide
      rw [hb2] at hb
      injection hb with hb
      split
      · rfl
      · rename_i ls app h4
        rw [← hb] at h4
        have hdx : (parse_float "0").getD 0 = (0 : ℚ) := by decide
        have hmx : parse_float "5" = some (5 : ℚ) := by decide
        have hmy : parse_float "" = (none : Option ℚ) := by decide
        rw [hdx, hmx, hmy] at h4
        rw [loop_run_zero_delta_diverges fuel 1 0] at h4
        exact absurd h4 (by simp)
  refine ⟨hmain, fun st'' fuel h => ?_⟩
  rw [hmain fuel] at h
  exact LoopResult.noConfusion h

/-- Witness for C3: with fuel for 1000 iterations the zero-delta loop is
still running. -/
theorem C3_loop_zero_delta_divergence_witness :
    loop_block "5" "" "0" "0" 1000 ⟨["G1 X0 Y0"], none⟩ = .outOfFuel :=
  C3_loop_zero_delta_divergence.1 1000

/-- C4 (confirmed).  Error atomicity: a submit whose X or Y text does not
parse returns the state completely untouched with `false`; a loop on an
empty document, or with neither bound parseable, rejects with the state
completely untouched: the failing validations mutate nothing, not even the
snapshot slot. -/
theorem C4_error_atomicity :
    (∀ (x y : String) (st : DocState), pyFloat x = none ∨ pyFloat y = none →
      submit_line x y st = (st, false)) ∧
    (∀ (mx my dx dy : String) (fuel : ℕ) (st : DocState), st.gcode_lines = [] →
      loop_block mx my dx dy fuel st = .rejected st) ∧
    (∀ (mx my dx dy : String) (fuel : ℕ) (st : DocState),
      parse_float mx = none → parse_float my = none →
      loop_block mx my dx dy fuel st = .rejected st) := by
  refine ⟨fun x y st h => ?_,
    fun mx my dx dy fuel st h => loop_block_rejected_empty h,
    fun mx my dx dy fuel st hx hy => loop_block_rejected_noBounds hx hy⟩
  have he : fmt_number x = "" ∨ fmt_number y = "" :=
    h.imp (fun h1 => fmt_number_empty_of_none h1) fun h2 => fmt_number_empty_of_none h2
  simp only [submit_line]
  rw [if_pos he]

/-- Witness for C4: submitting the unparsable X text `"abc"` leaves the
one-record document exactly as it was. -/
theorem C4_error_atomicity_witness :
    submit_line "abc" "1" ⟨["G1 X0 Y0"], none⟩ = (⟨["G1 X0 Y0"], none⟩, false) :=
  C4_error_atomicity.1 "abc" "1" ⟨["G1 X0 Y0"], none⟩ (Or.inl (by decide))

/-- C5 (confirmed).  Parser characterization: a line yields a move exactly
when, after stripping everything from the first `;` or `#` on and trimming,
the line does not start with a spindle token (`M3`/`M5`, case-insensitive)
and, tokenizing on whitespace and commas, every `X`/`Y` token has a
well-formed numeric remainder and at least one `X` token and one `Y` token
occur.  In particular one malformed `X`/`Y` remainder makes the whole line
yield none. -/
theorem C5_parser_characterization (line : String) :
    (parse_g1_xy line).isSome = true ↔
      (spindleStart (trimList (stripAfter '#' (stripAfter ';' line.toList))) = false ∧
        (∀ t ∈ splitWs ((trimList (stripAfter '#'
          (stripAfter ';' line.toList))).map commaSpace), tokOk t) ∧
        (∃ t ∈ splitWs ((trimList (stripAfter '#'
          (stripAfter ';' line.toList))).map commaSpace), isXTok t) ∧
        ∃ t ∈ splitWs ((trimList (stripAfter '#'
          (stripAfter ';' line.toList))).map commaSpace), isYTok t) := by
  simp only [parse_g1_xy, parseXY]
  by_cases hnil : trimList (stripAfter '#' (stripAfter ';' line.toList)) = []
  · rw [if_pos hnil]
    constructor
    · intro h
      exact absurd h (by simp)
    · rintro ⟨-, -, ⟨t, ht, -⟩, -⟩
      rw [hnil] at ht
      simp [splitWs] at ht
  · rw [if_neg hnil]
    by_cases hsp :
        spindleStart (trimList (stripAfter '#' (stripAfter ';' line.toList))) = true
    · rw [if_pos hsp]
      constructor
      · intro h
        exact absurd h (by simp)
      · rintro ⟨hsp2, -⟩
        rw [hsp2] at hsp
        exact Bool.noConfusion hsp
    · rw [if_neg hsp]
      have hsp' :
          spindleStart (trimList (stripAfter '#' (stripAfter ';' line.toList))) =
            false := Bool.eq_false_iff.mpr hsp
      constructor
      · intro h
        split at h
        · rename_i x y hscan
          have hc := (scanTokens_char _ none none).mp ⟨x, y, hscan⟩
          exact ⟨hsp', hc.1, hc.2.1.resolve_left (by simp),
            hc.2.2.resolve_left (by simp)⟩
        · exact absurd h (by simp)
      · rintro ⟨-, hall, hX, hY⟩
        obtain ⟨x, y, hscan⟩ :=
          (scanTokens_char _ none none).mpr ⟨hall, Or.inr hX, Or.inr hY⟩
        split
        · simp
        · rename_i hne
          exact (hne x y hscan).elim

/-- Witness for C5, instantiated at the well-formed line `"G1 X1 Y2"`. -/
theorem C5_parser_characterization_witness :
    (parse_g1_xy "G1 X1 Y2").isSome = true ↔
      (spindleStart (trimList (stripAfter '#'
        (stripAfter ';' ("G1 X1 Y2" : String).toList))) = false ∧
        (∀ t ∈ splitWs ((trimList (stripAfter '#'
          (stripAfter ';' ("G1 X1 Y2" : String).toList))).map commaSpace), tokOk t) ∧
        (∃ t ∈ splitWs ((trimList (stripAfter '#'
          (stripAfter ';' ("G1 X1 Y2" : String).toList))).map commaSpace), isXTok t) ∧
        ∃ t ∈ splitWs ((trimList (stripAfter '#'
          (stripAfter ';' ("G1 X1 Y2" : String).toList))).map commaSpace), isYTok t) :=
  C5_parser_characterization "G1 X1 Y2"

/-- C6 (confirmed).  Parser totality: on every text line the parser yields
either a move or none — the model is a total function into an option type,
every failure path (empty line, comment-only line, spindle token, malformed
numeric, whitespace-only line) returning none rather than an error. -/
theorem C6_parser_total :
    (∀ line : String, parse_g1_xy line = none ∨ ∃ m : ℚ × ℚ, parse_g1_xy line = some m) ∧
    parse_g1_xy "" = none ∧
    parse_g1_xy "; comment only" = none ∧
    parse_g1_xy "M3" = none ∧
    parse_g1_xy "m5 X1 Y2" = none ∧
    parse_g1_xy "G1 X1..2 Y3" = none ∧
    parse_g1_xy "   " = none := by
  refine ⟨fun line => ?_, by decide, by decide, by decide, by decide, by decide,
    by decide⟩
  cases h : parse_g1_xy line with
  | none => exact Or.inl rfl
  | some m => exact Or.inr ⟨m, rfl⟩

/-- Witness for C6 at the empty line. -/
theorem C6_parser_total_witness :
    parse_g1_xy "" = none ∨ ∃ m : ℚ × ℚ, parse_g1_xy "" = some m :=
  C6_parser_total.1 ""

/-- C7 counterexample.  The claim says the canonical text re-parses to the
original value within 1e-9.  `"0.0000001"` parses to 1e-7, is not within
1e-9 of an integer, yet its 6-decimal rendering collapses to `"0"`, which
re-parses to 0 — an error of 1e-7, far above the claimed 1e-9. -/
theorem C7_canonicalize_counterexample :
    pyFloat "0.0000001" = some (1 / 10000000) ∧
      ¬ |(1 : ℚ) / 10000000 - (0 : ℚ)| < TOL ∧
      fmt_number "0.0000001" = "0" ∧
      pyFloat (fmt_number "0.0000001") = some 0 ∧
      ¬ |(0 : ℚ) - 1 / 10000000| ≤ TOL :=
  ⟨by decide, by decide, by decide, by decide, by decide⟩

/-- C7 (corrected).  Canonicalization: unparsable text canonicalizes to the
empty string; a value within 1e-9 of an integer is rendered with no decimal
point; and for every parseable text the canonical text re-parses exactly to
`canonVal v` — the value rounded to 6 decimals — which is within 5e-7 of the
original value (not within 1e-9, as the claim said).  Every canonical record
re-parses to exactly one move. -/
theorem C7_canonicalize_amended :
    (∀ s : String, pyFloat s = none → fmt_number s = "") ∧
    (∀ (s : String) (v : ℚ) (n : ℤ), pyFloat s = some v → |v - (n : ℚ)| < TOL →
      '.' ∉ (fmt_number s).toList) ∧
    (∀ (s : String) (v : ℚ), pyFloat s = some v →
      pyFloat (fmt_number s) = some (canonVal v) ∧
        |canonVal v - v| ≤ 1 / 2000000) ∧
    ∀ x y : ℚ, parse_g1_xy (mkRec x y) = some (canonVal x, canonVal y) := by
  refine ⟨fun s hs => fmt_number_empty_of_none hs, fun s v n hv hn => ?_,
    fun s v hv => ⟨?_, ?_⟩, parse_mkRec⟩
  · rw [fmt_number_eq_of_parse hv]
    exact fmtValChars_no_dot hn
  · rw [fmt_number_eq_of_parse hv]
    exact pyFloatList_fmtValChars v
  · simp only [canonVal]
    split
    · rename_i htr
      rw [abs_sub_comm]
      exact le_trans (le_of_lt htr) (by rw [TOL]; norm_num)
    · have h1 := roundHalfEven_abs_le (v * 1000000)
      have h2 : (roundHalfEven (v * 1000000) : ℚ) / 1000000 - v =
          ((roundHalfEven (v * 1000000) : ℚ) - v * 1000000) / 1000000 := by ring
      rw [h2, abs_div, abs_of_pos (show (0 : ℚ) < 1000000 by norm_num)]
      calc |(roundHalfEven (v * 1000000) : ℚ) - v * 1000000| / 1000000 ≤
            (1 / 2) / 1000000 := by linarith
        _ = 1 / 2000000 := by norm_num

/-- Witness for C7 at `"2.25"`: the canonical text `"2.25"` re-parses to the
(unchanged) canonical value within 5e-7. -/
theorem C7_canonicalize_amended_witness :
    pyFloat (fmt_number "2.25") = some (canonVal (9 / 4)) ∧
      |canonVal ((9 : ℚ) / 4) - 9 / 4| ≤ 1 / 2000000 :=
  C7_canonicalize_amended.2.2.1 "2.25" (9 / 4) (by decide)

/-- C8 counterexample.  The claim says ` F200` is appended exactly when the
first record has no `F` preceded by whitespace.  The source only tests for
`" F"` and a tab before `F`: a first record whose `F` follows a newline —
whitespace — still gets ` F200` appended. -/
theorem C8_export_counterexample :
    (∃ l1 l2, ("G1 X1 Y2\nF3" : String).toList = l1 ++ '\n' :: 'F' :: l2 ∧
      '\n'.isWhitespace = true) ∧
      save_gcode ⟨["G1 X1 Y2\nF3"], none⟩ =
        some ["M3", "G1 X1 Y2\nF3 F200", "M5"] :=
  ⟨⟨['G', '1', ' ', 'X', '1', ' ', 'Y', '2'], ['3'], by decide, by decide⟩, by decide⟩

/-- C8 (corrected).  Export: an empty document exports to nothing; otherwise
the output is `M3`, then the first record — with ` F200` appended exactly
when it contains no `F` preceded by a space or a tab (the two separators the
source actually tests, not arbitrary whitespace) — then the remaining
records unchanged, then `M5`.  The single record `G1 X1 Y2` exports to
`M3`, `G1 X1 Y2 F200`, `M5`. -/
theorem C8_export_amended :
    (∀ st : DocState, st.gcode_lines = [] → save_gcode st = none) ∧
    (∀ (st : DocState) (f : String) (rest : List String),
      st.gcode_lines = f :: rest →
      (¬ specFeedField f →
        save_gcode st = some ("M3" :: (f ++ " F200") :: (rest ++ ["M5"]))) ∧
      (specFeedField f → save_gcode st = some ("M3" :: f :: (rest ++ ["M5"])))) ∧
    save_gcode ⟨["G1 X1 Y2"], none⟩ = some ["M3", "G1 X1 Y2 F200", "M5"] := by
  refine ⟨fun st h => save_gcode_nil h,
    fun st f rest h => ⟨fun hnf => ?_, fun hf => ?_⟩, by decide⟩
  · have hc : hasSub [' ', 'F'] f.toList = false ∧
        hasSub ['\t', 'F'] f.toList = false := by
      rw [specFeedField_iff, not_or] at hnf
      exact ⟨Bool.eq_false_iff.mpr hnf.1, Bool.eq_false_iff.mpr hnf.2⟩
    rw [save_gcode_cons h, if_pos hc]
  · have hc : ¬ (hasSub [' ', 'F'] f.toList = false ∧
        hasSub ['\t', 'F'] f.toList = false) := by
      rw [specFeedField_iff] at hf
      rcases hf with hf | hf
      · intro hc
        rw [hc.1] at hf
        exact Bool.noConfusion hf
      · intro hc
        rw [hc.2] at hf
        exact Bool.noConfusion hf
    rw [save_gcode_cons h, if_neg hc]

/-- Witness for C8: the feed-field-free record `"G1 X1 Y2"` gets ` F200`. -/
theorem C8_export_amended_witness :
    save_gcode ⟨["G1 X1 Y2"], none⟩ =
      some ("M3" :: ("G1 X1 Y2" ++ " F200") :: (([] : List String) ++ ["M5"])) :=
  (C8_export_amended.2.1 ⟨["G1 X1 Y2"], none⟩ "G1 X1 Y2" [] rfl).1 (by
    rw [specFeedField_iff]
    decide)

/-- C9 counterexample.  The claim says restore consumes and discards the
snapshot.  The source's `restore_snapshot` copies the snapshot back but
leaves `last_snapshot` in place: after restoring, the slot still holds the
records, it is not cleared. -/
theorem C9_snapshot_counterexample :
    restore_snapshot ⟨[], some ["G1 X0 Y0"]⟩ =
        ⟨["G1 X0 Y0"], some ["G1 X0 Y0"]⟩ ∧
      (restore_snapshot ⟨[], some ["G1 X0 Y0"]⟩).last_snapshot ≠ none :=
  ⟨by decide, by decide⟩

/-- C9 (corrected).  Undo/snapshot: one snapshot slot, written with the
pre-operation records at the start of every successful mutating operation
(submit, remove, clear, import, loop); restore with no snapshot is a no-op;
restore copies the snapshot back but retains it (rather than discarding it,
as the claim said) — a second restore with no intervening mutation is a
no-op because the restored records equal the snapshot.  Undo after clear on
a 5-record document restores exactly the original 5 records in order. -/
theorem C9_snapshot_amended :
    (∀ st : DocState, st.last_snapshot = none → restore_snapshot st = st) ∧
    (∀ st : DocState, restore_snapshot (restore_snapshot st) = restore_snapshot st) ∧
    (∀ (x y : String) (st r : DocState) (ok : Bool), submit_line x y st = (r, ok) →
      ok = true → r.last_snapshot = some st.gcode_lines) ∧
    (∀ (sel : List ℕ) (st : DocState), sel ≠ [] →
      (remove_selected sel st).last_snapshot = some st.gcode_lines) ∧
    (∀ st : DocState, st.gcode_lines ≠ [] →
      (clear_all_lines st).last_snapshot = some st.gcode_lines) ∧
    (∀ (raw : List String) (rep : Bool) (st r : DocState) (i k : ℕ),
      import_lines raw rep st = (r, i, k) → 0 < i →
      r.last_snapshot = some st.gcode_lines) ∧
    (∀ (mx my dx dy : String) (fuel : ℕ) (st st' : DocState) (n : ℕ),
      loop_block mx my dx dy fuel st = .finished st' n →
      st'.last_snapshot = some st.gcode_lines) ∧
    (restore_snapshot (clear_all_lines ⟨["G1 X0 Y0", "G1 X1 Y1", "G1 X2 Y4",
        "G1 X3 Y9", "G1 X4 Y16"], none⟩)).gcode_lines =
      ["G1 X0 Y0", "G1 X1 Y1", "G1 X2 Y4", "G1 X3 Y9", "G1 X4 Y16"] ∧
    restore_snapshot (restore_snapshot (clear_all_lines ⟨["G1 X0 Y0", "G1 X1 Y1",
        "G1 X2 Y4", "G1 X3 Y9", "G1 X4 Y16"], none⟩)) =
      restore_snapshot (clear_all_lines ⟨["G1 X0 Y0", "G1 X1 Y1", "G1 X2 Y4",
        "G1 X3 Y9", "G1 X4 Y16"], none⟩) := by
  refine ⟨fun st h => ?_, restore_restore, fun x y st r ok h hok => ?_,
    fun sel st h => ?_, fun st h => ?_,
    fun raw rep st r i k h hi => import_lines_snapshot h hi,
    fun mx my dx dy fuel st st' n h => loop_block_finished_snapshot h,
    by decide, by decide⟩
  · rcases st with ⟨g, snap⟩
    cases snap with
    | none => rfl
    | some l => exact absurd h (by simp)
  · subst hok
    exact submit_line_ok_snapshot h
  · simp only [remove_selected]
    rw [if_neg h]
    rfl
  · simp only [clear_all_lines]
    rw [if_neg h]
    rfl

/-- Witness for C9: clearing a 5-record document stores exactly those 5
records in the snapshot slot. -/
theorem C9_snapshot_amended_witness :
    (clear_all_lines ⟨["G1 X0 Y0", "G1 X1 Y1", "G1 X2 Y4", "G1 X3 Y9",
        "G1 X4 Y16"], none⟩).last_snapshot =
      some ["G1 X0 Y0", "G1 X1 Y1", "G1 X2 Y4", "G1 X3 Y9", "G1 X4 Y16"] :=
  C9_snapshot_amended.2.2.2.2.1
    ⟨["G1 X0 Y0", "G1 X1 Y1", "G1 X2 Y4", "G1 X3 Y9", "G1 X4 Y16"], none⟩
    (by decide)

/-- C10 (confirmed).  Record invariant: every record the engine itself ever
stores has the canonical shape `G1 X<num> Y<num>` and parses to a move.  The
invariant holds of the initial empty state and is preserved by submit,
remove, clear, restore, import and a finished loop; under it every stored
record re-parses, so the loop's per-record parse-abort branch is
unreachable: a loop on a non-empty invariant-satisfying document with a
bound set is never rejected. -/
theorem C10_record_invariant :
    (∀ x y : ℚ, CanonRec (mkRec x y) ∧ (parse_g1_xy (mkRec x y)).isSome = true) ∧
    (∀ (x y : String) (st : DocState), InvState st →
      InvState (submit_line x y st).1) ∧
    (∀ (sel : List ℕ) (st : DocState), InvState st →
      InvState (remove_selected sel st)) ∧
    (∀ st : DocState, InvState st → InvState (clear_all_lines st)) ∧
    (∀ st : DocState, InvState st → InvState (restore_snapshot st)) ∧
    (∀ (raw : List String) (rep : Bool) (st : DocState), InvState st →
      InvState (import_lines raw rep st).1) ∧
    (∀ (mx my dx dy : String) (fuel : ℕ) (st st' : DocState) (n : ℕ),
      InvState st → loop_block mx my dx dy fuel st = .finished st' n →
      InvState st') ∧
    (∀ (mx my dx dy : String) (fuel : ℕ) (st : DocState), InvState st →
      st.gcode_lines ≠ [] → ¬ (parse_float mx = none ∧ parse_float my = none) →
      ∀ st'' : DocState, loop_block mx my dx dy fuel st ≠ .rejected st'') ∧
    InvState ⟨[], none⟩ :=
  ⟨fun x y => ⟨canonRec_mkRec x y, by rw [parse_mkRec]; rfl⟩,
    fun x y st h => submit_line_preserves x y h,
    fun sel st h => remove_selected_preserves sel h,
    fun st h => clear_all_lines_preserves h,
    fun st h => restore_snapshot_preserves h,
    fun raw rep st h => import_lines_preserves raw rep h,
    fun mx my dx dy fuel st st' n h hl => (loop_block_finished_inv hl h).1,
    fun mx my dx dy fuel st h h1 h2 st'' =>
      loop_block_not_rejected h1 h2 (base_of_lines_ne_none h.1) st'',
    ⟨fun s hs => absurd hs (List.not_mem_nil s), fun _ hl => Option.noConfusion hl⟩⟩

/-- Witness for C10: a successful submit from the (invariant-satisfying)
empty state yields an invariant-satisfying state. -/
theorem C10_record_invariant_witness :
    InvState (submit_line "1" "2" ⟨[], none⟩).1 :=
  C10_record_invariant.2.1 "1" "2" ⟨[], none⟩
    ⟨fun s hs => absurd hs (List.not_mem_nil s), fun _ hl => Option.noConfusion hl⟩

